import Mathlib

/-!
Shallow embedding of the order-matching core of the coin-cidences crate
(src/src/lib.rs).

Modelling choices, following the source line by line:

* `rust_decimal::Decimal` (an exact decimal type) is modelled as `ℚ`;
  the only operations used by the source are comparison, `min` and
  subtraction, under which the decimals form a subring of `ℚ`.
* `BTreeMap<Decimal, VecDeque<Order>>` is modelled as an association
  list of (price, queue) pairs with strictly sorted keys: the ask
  ladder ascending and the bid ladder descending, so that the entry the
  source reaches through `first_entry` (asks) or `last_entry` (bids) —
  the best price on that side — is the head of the list.
* `VecDeque<Order>` is a `List Order` whose head is the deque front.
* The `while` loops of `match_bid_order` / `match_ask_order` are given
  as fuel-indexed recursions `matchBidGo` / `matchAskGo`; `none` means
  the fuel ran out before the loop finished, `some` is a genuine return.
-/

namespace CC

inductive Side where
  | Bid
  | Ask
deriving DecidableEq, Repr

structure Order where
  id : String
  price : ℚ
  quantity : ℚ
  side : Side
  timestamp : Nat
deriving DecidableEq, Repr

structure Trade where
  maker_order_id : String
  taker_order_id : String
  price : ℚ
  quantity : ℚ
deriving DecidableEq, Repr

/-- One price level: the FIFO queue of resting orders at one price
(`VecDeque<Order>`, head = front). -/
abbrev Level := List Order

/-- One side of the book: `BTreeMap<Decimal, VecDeque<Order>>` as an
association list sorted by key, best price first. -/
abbrev Ladder := List (ℚ × Level)

structure OrderBook where
  asks : Ladder
  bids : Ladder
deriving DecidableEq, Repr

/-- `Decimal::min` (kernel-computable form; equal to `min` on ℚ, see
`decMin_eq_min`). -/
def decMin (a b : ℚ) : ℚ := if a ≤ b then a else b

lemma decMin_eq_min (a b : ℚ) : decMin a b = min a b := (min_def a b).symm

/-- `BTreeMap::remove(&p)`: drop the entry with key `p` (on a
duplicate-free ladder this removes at most one entry). -/
def removeKey (p : ℚ) : Ladder → Ladder
  | [] => []
  | (q, lvl) :: rest =>
    if q = p then removeKey p rest else (q, lvl) :: removeKey p rest

/-- `map.entry(p).or_insert_with(VecDeque::new).push_back(o)` on an
ascending-sorted ladder (the ask side). -/
def insertOrderAsc (p : ℚ) (o : Order) : Ladder → Ladder
  | [] => [(p, [o])]
  | (q, lvl) :: rest =>
    if p = q then (q, lvl ++ [o]) :: rest
    else if p < q then (p, [o]) :: (q, lvl) :: rest
    else (q, lvl) :: insertOrderAsc p o rest

/-- `map.entry(p).or_insert_with(VecDeque::new).push_back(o)` on a
descending-sorted ladder (the bid side). -/
def insertOrderDesc (p : ℚ) (o : Order) : Ladder → Ladder
  | [] => [(p, [o])]
  | (q, lvl) :: rest =>
    if p = q then (q, lvl ++ [o]) :: rest
    else if q < p then (p, [o]) :: (q, lvl) :: rest
    else (q, lvl) :: insertOrderDesc p o rest

/-- Look up the queue stored at price `p` (first matching entry). -/
def queueAt (p : ℚ) : Ladder → Option Level
  | [] => none
  | (q, lvl) :: rest => if q = p then some lvl else queueAt p rest

/-- The `while bid.quantity > Decimal::ZERO { ... }` loop of
`match_bid_order` (src/src/lib.rs lines 50–87), walking the ask ladder.
Each iteration: look at the best (head) ask level; break if the ladder
is empty or its price exceeds the bid's price; otherwise trade against
the front resting ask (its price is the level key), decrement both
quantities, pop the ask when it reaches zero, and — if the level's
queue is now empty — `self.asks.remove(&bid.price)` (note: the source
removes the *incoming bid's* price, not the emptied level's price). -/
def matchBidGo : Nat → Order → Ladder → List Trade → Option (Order × Ladder × List Trade)
  | 0, _, _, _ => none
  | Nat.succ fuel, bid, asks, trades =>
    if 0 < bid.quantity then
      match asks with
      | [] => some (bid, [], trades)
      | (askPrice, lvl) :: rest =>
        if bid.price < askPrice then some (bid, (askPrice, lvl) :: rest, trades)
        else
          match lvl with
          | [] =>
            matchBidGo fuel bid (removeKey bid.price ((askPrice, []) :: rest)) trades
          | ask :: lvlRest =>
            let tq := decMin bid.quantity ask.quantity
            let t : Trade :=
              { maker_order_id := ask.id, taker_order_id := bid.id
                price := askPrice, quantity := tq }
            let bid' : Order := { bid with quantity := bid.quantity - tq }
            let ask' : Order := { ask with quantity := ask.quantity - tq }
            let lvl' := if ask.quantity - tq = 0 then lvlRest else ask' :: lvlRest
            let asks' :=
              if lvl'.isEmpty then removeKey bid.price ((askPrice, lvl') :: rest)
              else (askPrice, lvl') :: rest
            matchBidGo fuel bid' asks' (trades ++ [t])
    else some (bid, asks, trades)

/-- `OrderBook::match_bid_order` (src/src/lib.rs lines 47–97): run the
matching loop against the asks, then rest any positive remainder at the
back of the bid-ladder queue at the bid's own price. -/
def matchBidOrder (fuel : Nat) (bid : Order) (book : OrderBook) :
    Option (OrderBook × List Trade) :=
  match matchBidGo fuel bid book.asks [] with
  | none => none
  | some (bid', asks', trades) =>
    let bids' :=
      if 0 < bid'.quantity then insertOrderDesc bid'.price bid' book.bids
      else book.bids
    some ({ asks := asks', bids := bids' }, trades)

/-- The `while ask.quantity > Decimal::ZERO { ... }` loop of
`match_ask_order` (src/src/lib.rs lines 102–135), walking the bid
ladder from the best (highest) price; break when the ladder is empty or
the best bid is below the ask's price; on an emptied queue the source
executes `self.bids.remove(&ask.price)` (again the incoming order's
price, not the emptied level's). -/
def matchAskGo : Nat → Order → Ladder → List Trade → Option (Order × Ladder × List Trade)
  | 0, _, _, _ => none
  | Nat.succ fuel, ask, bids, trades =>
    if 0 < ask.quantity then
      match bids with
      | [] => some (ask, [], trades)
      | (bidPrice, lvl) :: rest =>
        if bidPrice < ask.price then some (ask, (bidPrice, lvl) :: rest, trades)
        else
          match lvl with
          | [] =>
            matchAskGo fuel ask (removeKey ask.price ((bidPrice, []) :: rest)) trades
          | bid :: lvlRest =>
            let tq := decMin ask.quantity bid.quantity
            let t : Trade :=
              { maker_order_id := bid.id, taker_order_id := ask.id
                price := bidPrice, quantity := tq }
            let ask' : Order := { ask with quantity := ask.quantity - tq }
            let bid' : Order := { bid with quantity := bid.quantity - tq }
            let lvl' := if bid.quantity - tq = 0 then lvlRest else bid' :: lvlRest
            let bids' :=
              if lvl'.isEmpty then removeKey ask.price ((bidPrice, lvl') :: rest)
              else (bidPrice, lvl') :: rest
            matchAskGo fuel ask' bids' (trades ++ [t])
    else some (ask, bids, trades)

/-- `OrderBook::match_ask_order` (src/src/lib.rs lines 99–145). -/
def matchAskOrder (fuel : Nat) (ask : Order) (book : OrderBook) :
    Option (OrderBook × List Trade) :=
  match matchAskGo fuel ask book.bids [] with
  | none => none
  | some (ask', bids', trades) =>
    let asks' :=
      if 0 < ask'.quantity then insertOrderAsc ask'.price ask' book.asks
      else book.asks
    some ({ asks := asks', bids := bids' }, trades)

/-- `OrderBook::add_order` (src/src/lib.rs lines 40–45): dispatch on
the side of the incoming order. -/
def addOrder (fuel : Nat) (o : Order) (book : OrderBook) :
    Option (OrderBook × List Trade) :=
  match o.side with
  | Side.Bid => matchBidOrder fuel o book
  | Side.Ask => matchAskOrder fuel o book

/-- `OrderBook::new`. -/
def emptyBook : OrderBook := { asks := [], bids := [] }

/-! ## Representation predicates and measures -/

/-- The ask ladder's keys are strictly ascending (the `BTreeMap`
representation invariant, best = lowest price first in our list). -/
def SortedAsc (l : Ladder) : Prop := l.Pairwise (fun a b => a.1 < b.1)

/-- The bid ladder's keys are strictly descending (best = highest price
first in our list). -/
def SortedDesc (l : Ladder) : Prop := l.Pairwise (fun a b => b.1 < a.1)

/-- Every order rests in the queue keyed by its own price (true by
construction in the source, which pushes at `entry(order.price)`). -/
def KeyCoherent (l : Ladder) : Prop := ∀ e ∈ l, ∀ o ∈ e.2, o.price = e.1

/-- Every resting order has strictly positive quantity (spec invariant
1, maintained by the source). -/
def PosQty (l : Ladder) : Prop := ∀ e ∈ l, ∀ o ∈ e.2, 0 < o.quantity

/-- No bid-ladder key reaches any ask-ladder key. -/
def Uncrossed (b : OrderBook) : Prop := ∀ e ∈ b.bids, ∀ e' ∈ b.asks, e.1 < e'.1

/-- Total quantity carried by a list of trades. -/
def tradeSum (ts : List Trade) : ℚ := (ts.map Trade.quantity).sum

/-- Maker ids of the trades executed at price `p`, in order. -/
def makersAt (p : ℚ) (ts : List Trade) : List String :=
  (ts.filter (fun t => decide (t.price = p))).map Trade.maker_order_id

instance : DecidableEq OrderBook := inferInstance

instance (l : Ladder) : Decidable (SortedAsc l) :=
  inferInstanceAs (Decidable (l.Pairwise fun a b : ℚ × Level => a.1 < b.1))

instance (l : Ladder) : Decidable (SortedDesc l) :=
  inferInstanceAs (Decidable (l.Pairwise fun a b : ℚ × Level => b.1 < a.1))

instance (l : Ladder) : Decidable (KeyCoherent l) :=
  inferInstanceAs (Decidable (∀ e ∈ l, ∀ o ∈ e.2, o.price = e.1))

instance (l : Ladder) : Decidable (PosQty l) :=
  inferInstanceAs (Decidable (∀ e ∈ l, ∀ o ∈ e.2, 0 < o.quantity))

instance (b : OrderBook) : Decidable (Uncrossed b) :=
  inferInstanceAs (Decidable (∀ e ∈ b.bids, ∀ e' ∈ b.asks, e.1 < e'.1))

example :
    addOrder 10 { id := "B1", price := 10, quantity := 5, side := Side.Bid, timestamp := 0 }
      emptyBook =
      some ({ asks := [], bids := [(10, [{ id := "B1", price := 10, quantity := 5, side := Side.Bid, timestamp := 0 }])] }, []) := by
  with_unfolding_all decide

/-! ## Concrete scenarios exercising the wrong-key level removal

`match_bid_order` finishes an emptied queue with
`self.asks.remove(&bid.price)` — the incoming order's price — instead
of removing the emptied level's own key `ask_price` (and the mirror in
`match_ask_order` removes `ask.price` from the bids).  The states below
are reached from the empty book by plain `add_order` calls. -/

def oA1 : Order := { id := "A1", price := 5, quantity := 5, side := Side.Ask, timestamp := 0 }

def oB1 : Order := { id := "B1", price := 10, quantity := 5, side := Side.Bid, timestamp := 1 }

def oB2 : Order := { id := "B2", price := 10, quantity := 2, side := Side.Bid, timestamp := 2 }

/-- Book after `add_order(oA1)` on the empty book. -/
def book1 : OrderBook := { asks := [(5, [oA1])], bids := [] }

/-- Book after `add_order(oB1)` on `book1`: the queue at price 5 was
emptied, but `remove(&bid.price)` removed key 10, so the empty level at
5 survives. -/
def book2 : OrderBook := { asks := [(5, [])], bids := [] }

def tradeA1B1 : Trade :=
  { maker_order_id := "A1", taker_order_id := "B1", price := 5, quantity := 5 }

lemma matchBidGo_book2_stuck : ∀ n, matchBidGo n oB2 [((5 : ℚ), ([] : Level))] [] = none := by
  intro n
  induction n with
  | zero => rfl
  | succ n ih => exact ih

/-! ## Ladder helper lemmas -/

lemma removeKey_sublist (p : ℚ) (l : Ladder) : (removeKey p l).Sublist l := by
  induction l with
  | nil => simp [removeKey]
  | cons e rest ih =>
    rcases e with ⟨q, lvl⟩
    by_cases hqp : q = p <;> simp only [removeKey, hqp, if_true, if_false]
    · exact ih.cons _
    · exact ih.cons₂ _

lemma mem_removeKey {p : ℚ} {l : Ladder} {e : ℚ × Level} (h : e ∈ removeKey p l) :
    e ∈ l := (removeKey_sublist p l).mem h

lemma removeKey_pairwise {R : ℚ × Level → ℚ × Level → Prop} {p : ℚ} {l : Ladder}
    (h : l.Pairwise R) : (removeKey p l).Pairwise R :=
  h.sublist (removeKey_sublist p l)

lemma queueAt_removeKey {p x : ℚ} (hne : p ≠ x) (l : Ladder) :
    queueAt p (removeKey x l) = queueAt p l := by
  induction l with
  | nil => rfl
  | cons e rest ih =>
    rcases e with ⟨q, lvl⟩
    by_cases hqx : q = x
    · have hqp : ¬ q = p := fun hqp => hne (hqp.symm.trans hqx)
      simp only [removeKey, if_pos hqx, queueAt, if_neg hqp, ih]
    · by_cases hqp : q = p
      · simp only [removeKey, if_neg hqx, queueAt, if_pos hqp]
      · simp only [removeKey, if_neg hqx, queueAt, if_neg hqp, ih]

lemma queueAt_removeKey_self (x : ℚ) (l : Ladder) :
    queueAt x (removeKey x l) = none := by
  induction l with
  | nil => rfl
  | cons e rest ih =>
    rcases e with ⟨q, lvl⟩
    by_cases hqx : q = x <;> simp [removeKey, queueAt, hqx, ih]

lemma mem_insertOrderAsc {x : ℚ} {o : Order} {l : Ladder} {e : ℚ × Level}
    (h : e ∈ insertOrderAsc x o l) : e.1 = x ∨ e ∈ l := by
  induction l with
  | nil => simp only [insertOrderAsc, List.mem_singleton] at h; left; rw [h]
  | cons f rest ih =>
    rcases f with ⟨q, lvl⟩
    by_cases hxq : x = q
    · simp only [insertOrderAsc, hxq, if_true, List.mem_cons] at h
      rcases h with rfl | h
      · exact Or.inl hxq.symm
      · exact Or.inr (List.mem_cons_of_mem _ h)
    · by_cases hlt : x < q
      · simp only [insertOrderAsc, hxq, if_false, hlt, if_true, List.mem_cons] at h
        rcases h with rfl | h
        · exact Or.inl rfl
        · exact Or.inr (List.mem_cons.mpr h)
      · simp only [insertOrderAsc, hxq, if_false, hlt, List.mem_cons] at h
        rcases h with rfl | h
        · exact Or.inr (List.mem_cons_self _ _)
        · rcases ih h with h' | h'
          · exact Or.inl h'
          · exact Or.inr (List.mem_cons.mpr (Or.inr h'))

lemma mem_insertOrderDesc {x : ℚ} {o : Order} {l : Ladder} {e : ℚ × Level}
    (h : e ∈ insertOrderDesc x o l) : e.1 = x ∨ e ∈ l := by
  induction l with
  | nil => simp only [insertOrderDesc, List.mem_singleton] at h; left; rw [h]
  | cons f rest ih =>
    rcases f with ⟨q, lvl⟩
    by_cases hxq : x = q
    · simp only [insertOrderDesc, hxq, if_true, List.mem_cons] at h
      rcases h with rfl | h
      · exact Or.inl hxq.symm
      · exact Or.inr (List.mem_cons_of_mem _ h)
    · by_cases hlt : q < x
      · simp only [insertOrderDesc, hxq, if_false, hlt, if_true, List.mem_cons] at h
        rcases h with rfl | h
        · exact Or.inl rfl
        · exact Or.inr (List.mem_cons.mpr h)
      · simp only [insertOrderDesc, hxq, if_false, hlt, List.mem_cons] at h
        rcases h with rfl | h
        · exact Or.inr (List.mem_cons_self _ _)
        · rcases ih h with h' | h'
          · exact Or.inl h'
          · exact Or.inr (List.mem_cons.mpr (Or.inr h'))

/-! ## One-iteration abbreviations and inversion of the two loops

The pieces produced by one trading iteration of each loop, named so the
loop lemmas below can speak about them; they are definitionally the
sub-terms of `matchBidGo` / `matchAskGo`. -/

/-- The trade emitted when the incoming bid meets resting ask `ask` at
the head level with key `p`. -/
def bidStepTrade (bid : Order) (p : ℚ) (ask : Order) : Trade :=
  { maker_order_id := ask.id, taker_order_id := bid.id, price := p,
    quantity := decMin bid.quantity ask.quantity }

/-- The incoming bid after one trading iteration. -/
def bidStepOrd (bid ask : Order) : Order :=
  { bid with quantity := bid.quantity - decMin bid.quantity ask.quantity }

/-- The ask ladder after one trading iteration of the bid loop: the
head level's queue is rewritten, then — if that queue emptied — the
source removes key `bid.price`. -/
def bidStepAsks (bid : Order) (p : ℚ) (ask : Order) (lvlRest : Level) (rest : Ladder) :
    Ladder :=
  let tq := decMin bid.quantity ask.quantity
  let lvl' := if ask.quantity - tq = 0 then lvlRest
    else { ask with quantity := ask.quantity - tq } :: lvlRest
  if lvl'.isEmpty then removeKey bid.price ((p, lvl') :: rest) else (p, lvl') :: rest

/-- The trade emitted when the incoming ask meets resting bid `bid` at
the head level with key `p`. -/
def askStepTrade (ask : Order) (p : ℚ) (bid : Order) : Trade :=
  { maker_order_id := bid.id, taker_order_id := ask.id, price := p,
    quantity := decMin ask.quantity bid.quantity }

/-- The incoming ask after one trading iteration. -/
def askStepOrd (ask bid : Order) : Order :=
  { ask with quantity := ask.quantity - decMin ask.quantity bid.quantity }

/-- The bid ladder after one trading iteration of the ask loop. -/
def askStepBids (ask : Order) (p : ℚ) (bid : Order) (lvlRest : Level) (rest : Ladder) :
    Ladder :=
  let tq := decMin ask.quantity bid.quantity
  let lvl' := if bid.quantity - tq = 0 then lvlRest
    else { bid with quantity := bid.quantity - tq } :: lvlRest
  if lvl'.isEmpty then removeKey ask.price ((p, lvl') :: rest) else (p, lvl') :: rest

/-- Inversion of one unfolding of the bid-matching loop. -/
lemma matchBidGo_succ_inv {n : Nat} {bid : Order} {asks : Ladder} {acc : List Trade}
    {res : Order × Ladder × List Trade}
    (h : matchBidGo (n + 1) bid asks acc = some res) :
    (¬ 0 < bid.quantity ∧ res = (bid, asks, acc)) ∨
    (0 < bid.quantity ∧ asks = [] ∧ res = (bid, [], acc)) ∨
    (0 < bid.quantity ∧ ∃ p lvl rest, asks = (p, lvl) :: rest ∧ bid.price < p ∧
      res = (bid, (p, lvl) :: rest, acc)) ∨
    (0 < bid.quantity ∧ ∃ p rest, asks = (p, []) :: rest ∧ ¬ bid.price < p ∧
      matchBidGo n bid (removeKey bid.price ((p, []) :: rest)) acc = some res) ∨
    (0 < bid.quantity ∧ ∃ p ask lvlRest rest, asks = (p, ask :: lvlRest) :: rest ∧
      ¬ bid.price < p ∧
      matchBidGo n (bidStepOrd bid ask) (bidStepAsks bid p ask lvlRest rest)
        (acc ++ [bidStepTrade bid p ask]) = some res) := by
  by_cases hq : 0 < bid.quantity
  · rcases asks with _ | ⟨⟨p, lvl⟩, rest⟩ <;> simp only [matchBidGo, hq, if_true] at h
    · exact Or.inr (Or.inl ⟨hq, rfl, Option.some.inj h.symm⟩)
    · by_cases hp : bid.price < p
      · simp only [hp, if_true] at h
        exact Or.inr (Or.inr (Or.inl ⟨hq, p, lvl, rest, rfl, hp, Option.some.inj h.symm⟩))
      · simp only [hp, if_false] at h
        rcases lvl with _ | ⟨ask, lvlRest⟩
        · exact Or.inr (Or.inr (Or.inr (Or.inl ⟨hq, p, rest, rfl, hp, h⟩)))
        · refine Or.inr (Or.inr (Or.inr (Or.inr ⟨hq, p, ask, lvlRest, rest, rfl, hp, ?_⟩)))
          simpa [bidStepOrd, bidStepAsks, bidStepTrade] using h
  · simp only [matchBidGo, hq, if_false] at h
    exact Or.inl ⟨hq, Option.some.inj h.symm⟩

/-- Inversion of one unfolding of the ask-matching loop. -/
lemma matchAskGo_succ_inv {n : Nat} {ask : Order} {bids : Ladder} {acc : List Trade}
    {res : Order × Ladder × List Trade}
    (h : matchAskGo (n + 1) ask bids acc = some res) :
    (¬ 0 < ask.quantity ∧ res = (ask, bids, acc)) ∨
    (0 < ask.quantity ∧ bids = [] ∧ res = (ask, [], acc)) ∨
    (0 < ask.quantity ∧ ∃ p lvl rest, bids = (p, lvl) :: rest ∧ p < ask.price ∧
      res = (ask, (p, lvl) :: rest, acc)) ∨
    (0 < ask.quantity ∧ ∃ p rest, bids = (p, []) :: rest ∧ ¬ p < ask.price ∧
      matchAskGo n ask (removeKey ask.price ((p, []) :: rest)) acc = some res) ∨
    (0 < ask.quantity ∧ ∃ p bid lvlRest rest, bids = (p, bid :: lvlRest) :: rest ∧
      ¬ p < ask.price ∧
      matchAskGo n (askStepOrd ask bid) (askStepBids ask p bid lvlRest rest)
        (acc ++ [askStepTrade ask p bid]) = some res) := by
  by_cases hq : 0 < ask.quantity
  · rcases bids with _ | ⟨⟨p, lvl⟩, rest⟩ <;> simp only [matchAskGo, hq, if_true] at h
    · exact Or.inr (Or.inl ⟨hq, rfl, Option.some.inj h.symm⟩)
    · by_cases hp : p < ask.price
      · simp only [hp, if_true] at h
        exact Or.inr (Or.inr (Or.inl ⟨hq, p, lvl, rest, rfl, hp, Option.some.inj h.symm⟩))
      · simp only [hp, if_false] at h
        rcases lvl with _ | ⟨bid, lvlRest⟩
        · exact Or.inr (Or.inr (Or.inr (Or.inl ⟨hq, p, rest, rfl, hp, h⟩)))
        · refine Or.inr (Or.inr (Or.inr (Or.inr ⟨hq, p, bid, lvlRest, rest, rfl, hp, ?_⟩)))
          simpa [askStepOrd, askStepBids, askStepTrade] using h
  · simp only [matchAskGo, hq, if_false] at h
    exact Or.inl ⟨hq, Option.some.inj h.symm⟩

/-! ## Facts about the one-iteration ladders -/

lemma tradeSum_append (a b : List Trade) : tradeSum (a ++ b) = tradeSum a + tradeSum b := by
  simp [tradeSum]

lemma decMin_le_left (a b : ℚ) : decMin a b ≤ a := by
  rw [decMin_eq_min]; exact min_le_left a b

lemma decMin_le_right (a b : ℚ) : decMin a b ≤ b := by
  rw [decMin_eq_min]; exact min_le_right a b

lemma bidStepAsks_keys {bid : Order} {p : ℚ} {ask : Order} {lvlRest : Level} {rest : Ladder}
    {e : ℚ × Level} (h : e ∈ bidStepAsks bid p ask lvlRest rest) :
    e.1 = p ∨ e ∈ rest := by
  unfold bidStepAsks at h
  set lvl' := if ask.quantity - decMin bid.quantity ask.quantity = 0 then lvlRest
    else { ask with quantity := ask.quantity - decMin bid.quantity ask.quantity } :: lvlRest with hlvl
  have hmem : e ∈ (p, lvl') :: rest := by
    by_cases hemp : lvl'.isEmpty <;> simp only [hemp, if_true, if_false] at h
    · exact mem_removeKey h
    · exact h
  rcases List.mem_cons.mp hmem with rfl | h'
  · exact Or.inl rfl
  · exact Or.inr h'

lemma bidStepAsks_sorted {bid : Order} {p : ℚ} {ask : Order} {lvlRest : Level} {rest : Ladder}
    (h : SortedAsc ((p, ask :: lvlRest) :: rest)) :
    SortedAsc (bidStepAsks bid p ask lvlRest rest) := by
  unfold SortedAsc at *
  rw [List.pairwise_cons] at h
  unfold bidStepAsks
  set lvl' := if ask.quantity - decMin bid.quantity ask.quantity = 0 then lvlRest
    else { ask with quantity := ask.quantity - decMin bid.quantity ask.quantity } :: lvlRest with hlvl
  have h' : List.Pairwise (fun a b => a.1 < b.1) ((p, lvl') :: rest) :=
    List.pairwise_cons.mpr ⟨fun b hb => h.1 b hb, h.2⟩
  by_cases hemp : lvl'.isEmpty <;> simp only [hemp, if_true, if_false]
  · exact removeKey_pairwise h'
  · exact h'

lemma askStepBids_keys {ask : Order} {p : ℚ} {bid : Order} {lvlRest : Level} {rest : Ladder}
    {e : ℚ × Level} (h : e ∈ askStepBids ask p bid lvlRest rest) :
    e.1 = p ∨ e ∈ rest := by
  unfold askStepBids at h
  set lvl' := if bid.quantity - decMin ask.quantity bid.quantity = 0 then lvlRest
    else { bid with quantity := bid.quantity - decMin ask.quantity bid.quantity } :: lvlRest with hlvl
  have hmem : e ∈ (p, lvl') :: rest := by
    by_cases hemp : lvl'.isEmpty <;> simp only [hemp, if_true, if_false] at h
    · exact mem_removeKey h
    · exact h
  rcases List.mem_cons.mp hmem with rfl | h'
  · exact Or.inl rfl
  · exact Or.inr h'

lemma askStepBids_sorted {ask : Order} {p : ℚ} {bid : Order} {lvlRest : Level} {rest : Ladder}
    (h : SortedDesc ((p, bid :: lvlRest) :: rest)) :
    SortedDesc (askStepBids ask p bid lvlRest rest) := by
  unfold SortedDesc at *
  rw [List.pairwise_cons] at h
  unfold askStepBids
  set lvl' := if bid.quantity - decMin ask.quantity bid.quantity = 0 then lvlRest
    else { bid with quantity := bid.quantity - decMin ask.quantity bid.quantity } :: lvlRest with hlvl
  have h' : List.Pairwise (fun a b => b.1 < a.1) ((p, lvl') :: rest) :=
    List.pairwise_cons.mpr ⟨fun b hb => h.1 b hb, h.2⟩
  by_cases hemp : lvl'.isEmpty <;> simp only [hemp, if_true, if_false]
  · exact removeKey_pairwise h'
  · exact h'

/-! ## Loop invariants: the incoming order's identity fields never change -/

lemma matchBidGo_fields {fuel : Nat} {bid bid' : Order} {asks asks' : Ladder}
    {acc tr : List Trade}
    (h : matchBidGo fuel bid asks acc = some (bid', asks', tr)) :
    bid'.id = bid.id ∧ bid'.price = bid.price ∧ bid'.side = bid.side ∧
      bid'.timestamp = bid.timestamp := by
  induction fuel generalizing bid asks acc with
  | zero => simp [matchBidGo] at h
  | succ n ih =>
    rcases asks with _ | ⟨⟨p, lvl⟩, rest⟩ <;> simp only [matchBidGo] at h
    · by_cases hq : 0 < bid.quantity <;>
        simp only [hq, if_true, if_false, Option.some.injEq, Prod.mk.injEq] at h <;>
        obtain ⟨rfl, -, -⟩ := h <;> exact ⟨rfl, rfl, rfl, rfl⟩
    · by_cases hq : 0 < bid.quantity
      · simp only [hq, if_true] at h
        by_cases hp : bid.price < p
        · simp only [hp, if_true, Option.some.injEq, Prod.mk.injEq] at h
          obtain ⟨rfl, -, -⟩ := h
          exact ⟨rfl, rfl, rfl, rfl⟩
        · simp only [hp, if_false] at h
          rcases lvl with _ | ⟨ask, lvlRest⟩
          · exact ih h
          · simp only [] at h
            have hrec := ih h
            simpa using hrec
      · simp only [hq, if_true, if_false, Option.some.injEq, Prod.mk.injEq] at h
        obtain ⟨rfl, -, -⟩ := h
        exact ⟨rfl, rfl, rfl, rfl⟩

/-! ## Bid-loop lemmas -/

lemma matchBidGo_acc {fuel : Nat} {bid bid' : Order} {asks asks' : Ladder}
    {acc tr : List Trade}
    (h : matchBidGo fuel bid asks acc = some (bid', asks', tr)) :
    ∃ new, tr = acc ++ new := by
  induction fuel generalizing bid asks acc with
  | zero => simp [matchBidGo] at h
  | succ n ih =>
    rcases matchBidGo_succ_inv h with ⟨hq, he⟩ | ⟨hq, hasks, he⟩ |
        ⟨hq, p, lvl, rest, hasks, hp, he⟩ | ⟨hq, p, rest, hasks, hp, hrec⟩ |
        ⟨hq, p, ask, lvlRest, rest, hasks, hp, hrec⟩
    · simp only [Prod.mk.injEq] at he
      exact ⟨[], by simp [he.2.2]⟩
    · simp only [Prod.mk.injEq] at he
      exact ⟨[], by simp [he.2.2]⟩
    · simp only [Prod.mk.injEq] at he
      exact ⟨[], by simp [he.2.2]⟩
    · exact ih hrec
    · obtain ⟨new, hnew⟩ := ih hrec
      exact ⟨[bidStepTrade bid p ask] ++ new, by simp [hnew]⟩

lemma matchBidGo_keys {fuel : Nat} {bid bid' : Order} {asks asks' : Ladder}
    {acc tr : List Trade}
    (h : matchBidGo fuel bid asks acc = some (bid', asks', tr)) :
    ∀ e ∈ asks', ∃ e0 ∈ asks, e.1 = e0.1 := by
  induction fuel generalizing bid asks acc with
  | zero => simp [matchBidGo] at h
  | succ n ih =>
    rcases matchBidGo_succ_inv h with ⟨hq, he⟩ | ⟨hq, hasks, he⟩ |
        ⟨hq, p, lvl, rest, hasks, hp, he⟩ | ⟨hq, p, rest, hasks, hp, hrec⟩ |
        ⟨hq, p, ask, lvlRest, rest, hasks, hp, hrec⟩
    · simp only [Prod.mk.injEq] at he
      rw [he.2.1]
      exact fun e he' => ⟨e, he', rfl⟩
    · simp only [Prod.mk.injEq] at he
      rw [he.2.1]
      simp
    · simp only [Prod.mk.injEq] at he
      rw [he.2.1, ← hasks]
      exact fun e he' => ⟨e, he', rfl⟩
    · intro e he'
      obtain ⟨e0, he0, hkey⟩ := ih hrec e he'
      exact ⟨e0, hasks ▸ mem_removeKey he0, hkey⟩
    · intro e he'
      obtain ⟨e0, he0, hkey⟩ := ih hrec e he'
      rcases bidStepAsks_keys he0 with hckey | hcrest
      · exact ⟨(p, ask :: lvlRest), by rw [hasks]; exact List.mem_cons_self _ _,
          by rw [hkey, hckey]⟩
      · exact ⟨e0, by rw [hasks]; exact List.mem_cons.mpr (Or.inr hcrest), hkey⟩

lemma matchBidGo_sorted {fuel : Nat} {bid bid' : Order} {asks asks' : Ladder}
    {acc tr : List Trade}
    (h : matchBidGo fuel bid asks acc = some (bid', asks', tr))
    (hs : SortedAsc asks) : SortedAsc asks' := by
  induction fuel generalizing bid asks acc with
  | zero => simp [matchBidGo] at h
  | succ n ih =>
    rcases matchBidGo_succ_inv h with ⟨hq, he⟩ | ⟨hq, hasks, he⟩ |
        ⟨hq, p, lvl, rest, hasks, hp, he⟩ | ⟨hq, p, rest, hasks, hp, hrec⟩ |
        ⟨hq, p, ask, lvlRest, rest, hasks, hp, hrec⟩
    · simp only [Prod.mk.injEq] at he
      rw [he.2.1]; exact hs
    · simp only [Prod.mk.injEq] at he
      rw [he.2.1]; exact List.Pairwise.nil
    · simp only [Prod.mk.injEq] at he
      rw [he.2.1, ← hasks]; exact hs
    · exact ih hrec (removeKey_pairwise (hasks ▸ hs))
    · exact ih hrec (bidStepAsks_sorted (hasks ▸ hs))

lemma matchBidGo_exit {fuel : Nat} {bid bid' : Order} {asks asks' : Ladder}
    {acc tr : List Trade}
    (h : matchBidGo fuel bid asks acc = some (bid', asks', tr))
    (hq' : 0 < bid'.quantity) :
    asks' = [] ∨ ∃ p lvl rest, asks' = (p, lvl) :: rest ∧ bid.price < p := by
  induction fuel generalizing bid asks acc with
  | zero => simp [matchBidGo] at h
  | succ n ih =>
    rcases matchBidGo_succ_inv h with ⟨hq, he⟩ | ⟨hq, hasks, he⟩ |
        ⟨hq, p, lvl, rest, hasks, hp, he⟩ | ⟨hq, p, rest, hasks, hp, hrec⟩ |
        ⟨hq, p, ask, lvlRest, rest, hasks, hp, hrec⟩
    · simp only [Prod.mk.injEq] at he
      exact absurd (he.1 ▸ hq') hq
    · simp only [Prod.mk.injEq] at he
      exact Or.inl he.2.1
    · simp only [Prod.mk.injEq] at he
      exact Or.inr ⟨p, lvl, rest, he.2.1, hp⟩
    · exact ih hrec
    · have hres := ih hrec
      simpa [bidStepOrd] using hres

lemma matchBidGo_conserve {fuel : Nat} {bid bid' : Order} {asks asks' : Ladder}
    {acc tr : List Trade}
    (h : matchBidGo fuel bid asks acc = some (bid', asks', tr))
    (hq0 : 0 ≤ bid.quantity) (hpos : PosQty asks) :
    bid'.quantity + tradeSum tr = bid.quantity + tradeSum acc ∧
      0 ≤ bid'.quantity ∧ PosQty asks' := by
  induction fuel generalizing bid asks acc with
  | zero => simp [matchBidGo] at h
  | succ n ih =>
    rcases matchBidGo_succ_inv h with ⟨hq, he⟩ | ⟨hq, hasks, he⟩ |
        ⟨hq, p, lvl, rest, hasks, hp, he⟩ | ⟨hq, p, rest, hasks, hp, hrec⟩ |
        ⟨hq, p, ask, lvlRest, rest, hasks, hp, hrec⟩
    · simp only [Prod.mk.injEq] at he
      obtain ⟨rfl, rfl, rfl⟩ := he
      exact ⟨rfl, hq0, hpos⟩
    · simp only [Prod.mk.injEq] at he
      obtain ⟨rfl, rfl, rfl⟩ := he
      exact ⟨rfl, hq0, by intro e he'; simp at he'⟩
    · simp only [Prod.mk.injEq] at he
      obtain ⟨rfl, rfl, rfl⟩ := he
      exact ⟨rfl, hq0, hasks ▸ hpos⟩
    · refine ih hrec hq0 ?_
      exact fun e he' o ho => hpos e (hasks ▸ mem_removeKey he') o ho
    · subst hasks
      have htql : decMin bid.quantity ask.quantity ≤ bid.quantity :=
        decMin_le_left _ _
      have htqr : decMin bid.quantity ask.quantity ≤ ask.quantity :=
        decMin_le_right _ _
      have hq0' : 0 ≤ (bidStepOrd bid ask).quantity := by
        simp only [bidStepOrd]
        linarith
      have hpos' : PosQty (bidStepAsks bid p ask lvlRest rest) := by
        intro e he' o ho
        set tq := decMin bid.quantity ask.quantity with htq
        have hmem : e ∈ ((p, if ask.quantity - tq = 0 then lvlRest
            else { ask with quantity := ask.quantity - tq } :: lvlRest) :: rest) := by
          unfold bidStepAsks at he'
          by_cases hemp : (if ask.quantity - tq = 0 then lvlRest
              else { ask with quantity := ask.quantity - tq } :: lvlRest).isEmpty <;>
            simp only [← htq, hemp, if_true, if_false] at he'
          · exact mem_removeKey he'
          · exact he'
        rcases List.mem_cons.mp hmem with rfl | hrest
        · by_cases hz : ask.quantity - tq = 0 <;> simp only [hz, if_true, if_false] at ho
          · exact hpos (p, ask :: lvlRest) (List.mem_cons_self _ _) o
              (List.mem_cons.mpr (Or.inr ho))
          · rcases List.mem_cons.mp ho with rfl | ho'
            · have : 0 ≤ ask.quantity - tq := by linarith
              simpa using lt_of_le_of_ne this (Ne.symm hz)
            · exact hpos (p, ask :: lvlRest) (List.mem_cons_self _ _) o
                (List.mem_cons.mpr (Or.inr ho'))
        · exact hpos e (List.mem_cons.mpr (Or.inr hrest)) o ho
      obtain ⟨hsum, hq0'', hpos''⟩ := ih hrec hq0' hpos'
      refine ⟨?_, hq0'', hpos''⟩
      rw [hsum, tradeSum_append]
      simp only [bidStepOrd, bidStepTrade, tradeSum, List.map_cons, List.map_nil,
        List.sum_cons, List.sum_nil]
      ring

/-! ## Ask-loop lemmas (mirror images of the bid-loop lemmas) -/

lemma matchAskGo_acc {fuel : Nat} {ask ask' : Order} {bids bids' : Ladder}
    {acc tr : List Trade}
    (h : matchAskGo fuel ask bids acc = some (ask', bids', tr)) :
    ∃ new, tr = acc ++ new := by
  induction fuel generalizing ask bids acc with
  | zero => simp [matchAskGo] at h
  | succ n ih =>
    rcases matchAskGo_succ_inv h with ⟨hq, he⟩ | ⟨hq, hbids, he⟩ |
        ⟨hq, p, lvl, rest, hbids, hp, he⟩ | ⟨hq, p, rest, hbids, hp, hrec⟩ |
        ⟨hq, p, bid, lvlRest, rest, hbids, hp, hrec⟩
    · simp only [Prod.mk.injEq] at he
      exact ⟨[], by simp [he.2.2]⟩
    · simp only [Prod.mk.injEq] at he
      exact ⟨[], by simp [he.2.2]⟩
    · simp only [Prod.mk.injEq] at he
      exact ⟨[], by simp [he.2.2]⟩
    · exact ih hrec
    · obtain ⟨new, hnew⟩ := ih hrec
      exact ⟨[askStepTrade ask p bid] ++ new, by simp [hnew]⟩

lemma matchAskGo_keys {fuel : Nat} {ask ask' : Order} {bids bids' : Ladder}
    {acc tr : List Trade}
    (h : matchAskGo fuel ask bids acc = some (ask', bids', tr)) :
    ∀ e ∈ bids', ∃ e0 ∈ bids, e.1 = e0.1 := by
  induction fuel generalizing ask bids acc with
  | zero => simp [matchAskGo] at h
  | succ n ih =>
    rcases matchAskGo_succ_inv h with ⟨hq, he⟩ | ⟨hq, hbids, he⟩ |
        ⟨hq, p, lvl, rest, hbids, hp, he⟩ | ⟨hq, p, rest, hbids, hp, hrec⟩ |
        ⟨hq, p, bid, lvlRest, rest, hbids, hp, hrec⟩
    · simp only [Prod.mk.injEq] at he
      rw [he.2.1]
      exact fun e he' => ⟨e, he', rfl⟩
    · simp only [Prod.mk.injEq] at he
      rw [he.2.1]
      simp
    · simp only [Prod.mk.injEq] at he
      rw [he.2.1, ← hbids]
      exact fun e he' => ⟨e, he', rfl⟩
    · intro e he'
      obtain ⟨e0, he0, hkey⟩ := ih hrec e he'
      exact ⟨e0, hbids ▸ mem_removeKey he0, hkey⟩
    · intro e he'
      obtain ⟨e0, he0, hkey⟩ := ih hrec e he'
      rcases askStepBids_keys he0 with hckey | hcrest
      · exact ⟨(p, bid :: lvlRest), by rw [hbids]; exact List.mem_cons_self _ _,
          by rw [hkey, hckey]⟩
      · exact ⟨e0, by rw [hbids]; exact List.mem_cons.mpr (Or.inr hcrest), hkey⟩

lemma matchAskGo_sorted {fuel : Nat} {ask ask' : Order} {bids bids' : Ladder}
    {acc tr : List Trade}
    (h : matchAskGo fuel ask bids acc = some (ask', bids', tr))
    (hs : SortedDesc bids) : SortedDesc bids' := by
  induction fuel generalizing ask bids acc with
  | zero => simp [matchAskGo] at h
  | succ n ih =>
    rcases matchAskGo_succ_inv h with ⟨hq, he⟩ | ⟨hq, hbids, he⟩ |
        ⟨hq, p, lvl, rest, hbids, hp, he⟩ | ⟨hq, p, rest, hbids, hp, hrec⟩ |
        ⟨hq, p, bid, lvlRest, rest, hbids, hp, hrec⟩
    · simp only [Prod.mk.injEq] at he
      rw [he.2.1]; exact hs
    · simp only [Prod.mk.injEq] at he
      rw [he.2.1]; exact List.Pairwise.nil
    · simp only [Prod.mk.injEq] at he
      rw [he.2.1, ← hbids]; exact hs
    · exact ih hrec (removeKey_pairwise (hbids ▸ hs))
    · exact ih hrec (askStepBids_sorted (hbids ▸ hs))

lemma matchAskGo_exit {fuel : Nat} {ask ask' : Order} {bids bids' : Ladder}
    {acc tr : List Trade}
    (h : matchAskGo fuel ask bids acc = some (ask', bids', tr))
    (hq' : 0 < ask'.quantity) :
    bids' = [] ∨ ∃ p lvl rest, bids' = (p, lvl) :: rest ∧ p < ask.price := by
  induction fuel generalizing ask bids acc with
  | zero => simp [matchAskGo] at h
  | succ n ih =>
    rcases matchAskGo_succ_inv h with ⟨hq, he⟩ | ⟨hq, hbids, he⟩ |
        ⟨hq, p, lvl, rest, hbids, hp, he⟩ | ⟨hq, p, rest, hbids, hp, hrec⟩ |
        ⟨hq, p, bid, lvlRest, rest, hbids, hp, hrec⟩
    · simp only [Prod.mk.injEq] at he
      exact absurd (he.1 ▸ hq') hq
    · simp only [Prod.mk.injEq] at he
      exact Or.inl he.2.1
    · simp only [Prod.mk.injEq] at he
      exact Or.inr ⟨p, lvl, rest, he.2.1, hp⟩
    · exact ih hrec
    · have hres := ih hrec
      simpa [askStepOrd] using hres

lemma matchAskGo_conserve {fuel : Nat} {ask ask' : Order} {bids bids' : Ladder}
    {acc tr : List Trade}
    (h : matchAskGo fuel ask bids acc = some (ask', bids', tr))
    (hq0 : 0 ≤ ask.quantity) (hpos : PosQty bids) :
    ask'.quantity + tradeSum tr = ask.quantity + tradeSum acc ∧
      0 ≤ ask'.quantity ∧ PosQty bids' := by
  induction fuel generalizing ask bids acc with
  | zero => simp [matchAskGo] at h
  | succ n ih =>
    rcases matchAskGo_succ_inv h with ⟨hq, he⟩ | ⟨hq, hbids, he⟩ |
        ⟨hq, p, lvl, rest, hbids, hp, he⟩ | ⟨hq, p, rest, hbids, hp, hrec⟩ |
        ⟨hq, p, bid, lvlRest, rest, hbids, hp, hrec⟩
    · simp only [Prod.mk.injEq] at he
      obtain ⟨rfl, rfl, rfl⟩ := he
      exact ⟨rfl, hq0, hpos⟩
    · simp only [Prod.mk.injEq] at he
      obtain ⟨rfl, rfl, rfl⟩ := he
      exact ⟨rfl, hq0, by intro e he'; simp at he'⟩
    · simp only [Prod.mk.injEq] at he
      obtain ⟨rfl, rfl, rfl⟩ := he
      exact ⟨rfl, hq0, hbids ▸ hpos⟩
    · refine ih hrec hq0 ?_
      exact fun e he' o ho => hpos e (hbids ▸ mem_removeKey he') o ho
    · subst hbids
      have htql : decMin ask.quantity bid.quantity ≤ ask.quantity :=
        decMin_le_left _ _
      have htqr : decMin ask.quantity bid.quantity ≤ bid.quantity :=
        decMin_le_right _ _
      have hq0' : 0 ≤ (askStepOrd ask bid).quantity := by
        simp only [askStepOrd]
        linarith
      have hpos' : PosQty (askStepBids ask p bid lvlRest rest) := by
        intro e he' o ho
        set tq := decMin ask.quantity bid.quantity with htq
        have hmem : e ∈ ((p, if bid.quantity - tq = 0 then lvlRest
            else { bid with quantity := bid.quantity - tq } :: lvlRest) :: rest) := by
          unfold askStepBids at he'
          by_cases hemp : (if bid.quantity - tq = 0 then lvlRest
              else { bid with quantity := bid.quantity - tq } :: lvlRest).isEmpty <;>
            simp only [← htq, hemp, if_true, if_false] at he'
          · exact mem_removeKey he'
          · exact he'
        rcases List.mem_cons.mp hmem with rfl | hrest
        · by_cases hz : bid.quantity - tq = 0 <;> simp only [hz, if_true, if_false] at ho
          · exact hpos (p, bid :: lvlRest) (List.mem_cons_self _ _) o
              (List.mem_cons.mpr (Or.inr ho))
          · rcases List.mem_cons.mp ho with rfl | ho'
            · have : 0 ≤ bid.quantity - tq := by linarith
              simpa using lt_of_le_of_ne this (Ne.symm hz)
            · exact hpos (p, bid :: lvlRest) (List.mem_cons_self _ _) o
                (List.mem_cons.mpr (Or.inr ho'))
        · exact hpos e (List.mem_cons.mpr (Or.inr hrest)) o ho
      obtain ⟨hsum, hq0'', hpos''⟩ := ih hrec hq0' hpos'
      refine ⟨?_, hq0'', hpos''⟩
      rw [hsum, tradeSum_append]
      simp only [askStepOrd, askStepTrade, tradeSum, List.map_cons, List.map_nil,
        List.sum_cons, List.sum_nil]
      ring

lemma matchAskGo_fields {fuel : Nat} {ask ask' : Order} {bids bids' : Ladder}
    {acc tr : List Trade}
    (h : matchAskGo fuel ask bids acc = some (ask', bids', tr)) :
    ask'.id = ask.id ∧ ask'.price = ask.price ∧ ask'.side = ask.side ∧
      ask'.timestamp = ask.timestamp := by
  induction fuel generalizing ask bids acc with
  | zero => simp [matchAskGo] at h
  | succ n ih =>
    rcases matchAskGo_succ_inv h with ⟨hq, he⟩ | ⟨hq, hbids, he⟩ |
        ⟨hq, p, lvl, rest, hbids, hp, he⟩ | ⟨hq, p, rest, hbids, hp, hrec⟩ |
        ⟨hq, p, bid, lvlRest, rest, hbids, hp, hrec⟩
    · simp only [Prod.mk.injEq] at he
      obtain ⟨rfl, -, -⟩ := he
      exact ⟨rfl, rfl, rfl, rfl⟩
    · simp only [Prod.mk.injEq] at he
      obtain ⟨rfl, -, -⟩ := he
      exact ⟨rfl, rfl, rfl, rfl⟩
    · simp only [Prod.mk.injEq] at he
      obtain ⟨rfl, -, -⟩ := he
      exact ⟨rfl, rfl, rfl, rfl⟩
    · exact ih hrec
    · have hrec' := ih hrec
      simpa [askStepOrd] using hrec'

/-! ## Inversion of the two matcher entry points -/

lemma matchBidOrder_inv {fuel : Nat} {bid : Order} {book book' : OrderBook}
    {trades : List Trade}
    (h : matchBidOrder fuel bid book = some (book', trades)) :
    ∃ bid' asks', matchBidGo fuel bid book.asks [] = some (bid', asks', trades) ∧
      book'.asks = asks' ∧
      book'.bids = (if 0 < bid'.quantity then insertOrderDesc bid'.price bid' book.bids
        else book.bids) := by
  unfold matchBidOrder at h
  match hgo : matchBidGo fuel bid book.asks [] with
  | none => rw [hgo] at h; simp at h
  | some (bid', asks', tr) =>
    rw [hgo] at h
    simp only [Option.some.injEq, Prod.mk.injEq] at h
    obtain ⟨hbk, htr⟩ := h
    exact ⟨bid', asks', by rw [← htr], by rw [← hbk], by rw [← hbk]⟩

lemma matchAskOrder_inv {fuel : Nat} {ask : Order} {book book' : OrderBook}
    {trades : List Trade}
    (h : matchAskOrder fuel ask book = some (book', trades)) :
    ∃ ask' bids', matchAskGo fuel ask book.bids [] = some (ask', bids', trades) ∧
      book'.bids = bids' ∧
      book'.asks = (if 0 < ask'.quantity then insertOrderAsc ask'.price ask' book.asks
        else book.asks) := by
  unfold matchAskOrder at h
  match hgo : matchAskGo fuel ask book.bids [] with
  | none => rw [hgo] at h; simp at h
  | some (ask', bids', tr) =>
    rw [hgo] at h
    simp only [Option.some.injEq, Prod.mk.injEq] at h
    obtain ⟨hbk, htr⟩ := h
    exact ⟨ask', bids', by rw [← htr], by rw [← hbk], by rw [← hbk]⟩

/-! ## The no-cross postcondition -/

lemma matchBidOrder_uncrossed {fuel : Nat} {bid : Order} {book book' : OrderBook}
    {trades : List Trade}
    (hA : SortedAsc book.asks) (hU : Uncrossed book)
    (h : matchBidOrder fuel bid book = some (book', trades)) : Uncrossed book' := by
  obtain ⟨bid', asks', hgo, hasks, hbids⟩ := matchBidOrder_inv h
  have hfields := matchBidGo_fields hgo
  have hs' : SortedAsc asks' := matchBidGo_sorted hgo hA
  intro eb heb ea hea
  rw [hasks] at hea
  rw [hbids] at heb
  by_cases hq' : 0 < bid'.quantity
  · rw [if_pos hq'] at heb
    rcases mem_insertOrderDesc heb with hbk | hbold
    · rcases matchBidGo_exit hgo hq' with rfl | ⟨p, lvl, rest', heq, hplt⟩
      · simp at hea
      · rw [heq] at hea hs'
        rw [hbk, hfields.2.1]
        rcases List.mem_cons.mp hea with rfl | harest
        · exact hplt
        · exact lt_trans hplt ((List.pairwise_cons.mp hs').1 ea harest)
    · obtain ⟨ea0, hea0, hkey⟩ := matchBidGo_keys hgo ea hea
      rw [hkey]
      exact hU eb hbold ea0 hea0
  · rw [if_neg hq'] at heb
    obtain ⟨ea0, hea0, hkey⟩ := matchBidGo_keys hgo ea hea
    rw [hkey]
    exact hU eb heb ea0 hea0

lemma matchAskOrder_uncrossed {fuel : Nat} {ask : Order} {book book' : OrderBook}
    {trades : List Trade}
    (hB : SortedDesc book.bids) (hU : Uncrossed book)
    (h : matchAskOrder fuel ask book = some (book', trades)) : Uncrossed book' := by
  obtain ⟨ask', bids', hgo, hbids, hasks⟩ := matchAskOrder_inv h
  have hfields := matchAskGo_fields hgo
  have hs' : SortedDesc bids' := matchAskGo_sorted hgo hB
  intro eb heb ea hea
  rw [hasks] at hea
  rw [hbids] at heb
  by_cases hq' : 0 < ask'.quantity
  · rw [if_pos hq'] at hea
    rcases mem_insertOrderAsc hea with hak | haold
    · rcases matchAskGo_exit hgo hq' with rfl | ⟨p, lvl, rest', heq, hplt⟩
      · simp at heb
      · rw [heq] at heb hs'
        rw [hak, hfields.2.1]
        rcases List.mem_cons.mp heb with rfl | hbrest
        · exact hplt
        · exact lt_trans ((List.pairwise_cons.mp hs').1 eb hbrest) hplt
    · obtain ⟨eb0, heb0, hkey⟩ := matchAskGo_keys hgo eb heb
      rw [hkey]
      exact hU eb0 heb0 ea haold
  · rw [if_neg hq'] at hea
    obtain ⟨eb0, heb0, hkey⟩ := matchAskGo_keys hgo eb heb
    rw [hkey]
    exact hU eb0 heb0 ea hea

lemma addOrder_uncrossed_all {fuel : Nat} {o : Order} {book book' : OrderBook}
    {trades : List Trade}
    (hA : SortedAsc book.asks) (hB : SortedDesc book.bids) (hU : Uncrossed book)
    (h : addOrder fuel o book = some (book', trades)) : Uncrossed book' := by
  unfold addOrder at h
  cases hside : o.side <;> rw [hside] at h
  · exact matchBidOrder_uncrossed hA hU h
  · exact matchAskOrder_uncrossed hB hU h

/-- C4: after any add_order call that returns, the book is not crossed:
whenever both ladders are non-empty, the best (head, i.e. highest) bid
price is strictly below the best (head, i.e. lowest) ask price — from
any book state whose ladders are sorted and not crossed, which the
operations preserve. -/
theorem addOrder_no_cross {fuel : Nat} {o : Order} {book book' : OrderBook}
    {trades : List Trade}
    (hA : SortedAsc book.asks) (hB : SortedDesc book.bids) (hU : Uncrossed book)
    (h : addOrder fuel o book = some (book', trades)) :
    ∀ eb ∈ book'.bids.head?, ∀ ea ∈ book'.asks.head?, eb.1 < ea.1 := by
  have hU' : Uncrossed book' := addOrder_uncrossed_all hA hB hU h
  intro eb heb ea hea
  exact hU' eb (List.mem_of_mem_head? heb) ea (List.mem_of_mem_head? hea)

def oW1 : Order := { id := "AW", price := 10, quantity := 1, side := Side.Ask, timestamp := 0 }

def oW2 : Order := { id := "BX", price := 9, quantity := 2, side := Side.Bid, timestamp := 1 }

def oW3 : Order := { id := "BW", price := 9, quantity := 1, side := Side.Bid, timestamp := 2 }

def bookW : OrderBook := { asks := [(10, [oW1])], bids := [(9, [oW2])] }

def bookW' : OrderBook := { asks := [(10, [oW1])], bids := [(9, [oW2, oW3])] }

/-- Witness for C4: a bid that rests behind the spread leaves the book
uncrossed, with both ladders non-empty — the best (head) bid entry of
the resulting book has price 9, below the best (head) ask entry's 10. -/
theorem addOrder_no_cross_witness :
    (((9 : ℚ), [oW2, oW3]) : ℚ × Level).1 < (((10 : ℚ), [oW1]) : ℚ × Level).1 := by
  have h : addOrder 10 oW3 bookW = some (bookW', []) := by with_unfolding_all decide
  exact addOrder_no_cross (by decide) (by decide) (by decide) h
    ((9 : ℚ), [oW2, oW3]) (by decide) ((10 : ℚ), [oW1]) (by decide)

/-! ## Lookup lemmas for insertion, and the same-side frame property -/

lemma queueAt_of_mem {l : Ladder} {e : ℚ × Level}
    (hnd : l.Pairwise (fun a b => a.1 ≠ b.1)) (he : e ∈ l) :
    queueAt e.1 l = some e.2 := by
  induction l with
  | nil => simp at he
  | cons f rest ih =>
    rcases f with ⟨q, lvl⟩
    rw [List.pairwise_cons] at hnd
    rcases List.mem_cons.mp he with rfl | hrest
    · simp [queueAt]
    · have hq : ¬ q = e.1 := hnd.1 e hrest
      rw [queueAt, if_neg hq]
      exact ih hnd.2 hrest

lemma queueAt_insertOrderDesc_ne {p x : ℚ} (hne : p ≠ x) (o : Order) (l : Ladder) :
    queueAt p (insertOrderDesc x o l) = queueAt p l := by
  induction l with
  | nil => simp only [insertOrderDesc, queueAt, if_neg (Ne.symm hne)]
  | cons f rest ih =>
    rcases f with ⟨q, lvl⟩
    by_cases hxq : x = q
    · have hqp : ¬ q = p := fun h => hne ((h ▸ hxq : x = p)).symm
      rw [insertOrderDesc, if_pos hxq, queueAt, if_neg hqp, queueAt, if_neg hqp]
    · by_cases hlt : q < x
      · have hxp : ¬ x = p := fun h => hne h.symm
        rw [insertOrderDesc, if_neg hxq, if_pos hlt, queueAt, if_neg hxp]
      · rw [insertOrderDesc, if_neg hxq, if_neg hlt]
        by_cases hqp : q = p
        · rw [queueAt, if_pos hqp, queueAt, if_pos hqp]
        · rw [queueAt, if_neg hqp, queueAt, if_neg hqp, ih]

lemma queueAt_insertOrderAsc_ne {p x : ℚ} (hne : p ≠ x) (o : Order) (l : Ladder) :
    queueAt p (insertOrderAsc x o l) = queueAt p l := by
  induction l with
  | nil => simp only [insertOrderAsc, queueAt, if_neg (Ne.symm hne)]
  | cons f rest ih =>
    rcases f with ⟨q, lvl⟩
    by_cases hxq : x = q
    · have hqp : ¬ q = p := fun h => hne ((h ▸ hxq : x = p)).symm
      rw [insertOrderAsc, if_pos hxq, queueAt, if_neg hqp, queueAt, if_neg hqp]
    · by_cases hlt : x < q
      · have hxp : ¬ x = p := fun h => hne h.symm
        rw [insertOrderAsc, if_neg hxq, if_pos hlt, queueAt, if_neg hxp]
      · rw [insertOrderAsc, if_neg hxq, if_neg hlt]
        by_cases hqp : q = p
        · rw [queueAt, if_pos hqp, queueAt, if_pos hqp]
        · rw [queueAt, if_neg hqp, queueAt, if_neg hqp, ih]

lemma queueAt_insertOrderDesc_self {o : Order} {l : Ladder} {e : ℚ × Level}
    (hs : SortedDesc l) (he : e ∈ l) :
    queueAt e.1 (insertOrderDesc e.1 o l) = some (e.2 ++ [o]) := by
  induction l with
  | nil => simp at he
  | cons f rest ih =>
    rcases f with ⟨q, lvl0⟩
    rw [SortedDesc, List.pairwise_cons] at hs
    rcases List.mem_cons.mp he with rfl | hrest
    · rw [insertOrderDesc, if_pos rfl, queueAt, if_pos rfl]
    · have hxlt : e.1 < q := hs.1 e hrest
      have hxq : ¬ e.1 = q := ne_of_lt hxlt
      have hqx : ¬ q < e.1 := not_lt.mpr (le_of_lt hxlt)
      rw [insertOrderDesc, if_neg hxq, if_neg hqx, queueAt,
        if_neg (fun hqe => hxq hqe.symm)]
      exact ih hs.2 hrest

lemma queueAt_insertOrderAsc_self {o : Order} {l : Ladder} {e : ℚ × Level}
    (hs : SortedAsc l) (he : e ∈ l) :
    queueAt e.1 (insertOrderAsc e.1 o l) = some (e.2 ++ [o]) := by
  induction l with
  | nil => simp at he
  | cons f rest ih =>
    rcases f with ⟨q, lvl0⟩
    rw [SortedAsc, List.pairwise_cons] at hs
    rcases List.mem_cons.mp he with rfl | hrest
    · rw [insertOrderAsc, if_pos rfl, queueAt, if_pos rfl]
    · have hxlt : q < e.1 := hs.1 e hrest
      have hxq : ¬ e.1 = q := ne_of_gt hxlt
      have hqx : ¬ e.1 < q := not_lt.mpr (le_of_lt hxlt)
      rw [insertOrderAsc, if_neg hxq, if_neg hqx, queueAt,
        if_neg (fun hqe => hxq hqe.symm)]
      exact ih hs.2 hrest

lemma order_eq_of_fields {a b : Order} (h1 : a.id = b.id) (h2 : a.price = b.price)
    (h3 : a.side = b.side) (h4 : a.timestamp = b.timestamp) :
    a = { b with quantity := a.quantity } := by
  cases a
  cases b
  simp_all

lemma addOrder_frame_aux {fuel : Nat} {o : Order} {book book' : OrderBook}
    {trades : List Trade}
    (hA : SortedAsc book.asks) (hB : SortedDesc book.bids)
    (h : addOrder fuel o book = some (book', trades)) :
    (o.side = Side.Bid →
      (book'.bids = book.bids ∨
        ∃ r, 0 < r ∧
          book'.bids = insertOrderDesc o.price { o with quantity := r } book.bids) ∧
      ∀ e ∈ book.bids, queueAt e.1 book'.bids = some e.2 ∨
        (e.1 = o.price ∧ ∃ r, 0 < r ∧
          queueAt e.1 book'.bids = some (e.2 ++ [{ o with quantity := r }]))) ∧
    (o.side = Side.Ask →
      (book'.asks = book.asks ∨
        ∃ r, 0 < r ∧
          book'.asks = insertOrderAsc o.price { o with quantity := r } book.asks) ∧
      ∀ e ∈ book.asks, queueAt e.1 book'.asks = some e.2 ∨
        (e.1 = o.price ∧ ∃ r, 0 < r ∧
          queueAt e.1 book'.asks = some (e.2 ++ [{ o with quantity := r }]))) := by
  unfold addOrder at h
  constructor
  · intro hside
    rw [hside] at h
    obtain ⟨bid', asks', hgo, hasks, hbids⟩ := matchBidOrder_inv h
    obtain ⟨h1, h2, h3, h4⟩ := matchBidGo_fields hgo
    have hbid' : bid' = { o with quantity := bid'.quantity } :=
      order_eq_of_fields h1 h2 h3 h4
    have hndB : book.bids.Pairwise (fun a b => a.1 ≠ b.1) :=
      hB.imp (fun hlt => ne_of_gt hlt)
    by_cases hq' : 0 < bid'.quantity
    · rw [if_pos hq'] at hbids
      have hfinal : book'.bids =
          insertOrderDesc o.price { o with quantity := bid'.quantity } book.bids := by
        rw [hbids, h2]
        exact congrArg (fun z => insertOrderDesc o.price z book.bids) hbid'
      constructor
      · exact Or.inr ⟨bid'.quantity, hq', hfinal⟩
      · intro e he
        by_cases hep : e.1 = o.price
        · refine Or.inr ⟨hep, bid'.quantity, hq', ?_⟩
          rw [hfinal, ← hep]
          exact queueAt_insertOrderDesc_self hB he
        · refine Or.inl ?_
          rw [hfinal, queueAt_insertOrderDesc_ne hep]
          exact queueAt_of_mem hndB he
    · rw [if_neg hq'] at hbids
      refine ⟨Or.inl hbids, fun e he => Or.inl ?_⟩
      rw [hbids]
      exact queueAt_of_mem hndB he
  · intro hside
    rw [hside] at h
    obtain ⟨ask', bids', hgo, hbids, hasks⟩ := matchAskOrder_inv h
    obtain ⟨h1, h2, h3, h4⟩ := matchAskGo_fields hgo
    have hask' : ask' = { o with quantity := ask'.quantity } :=
      order_eq_of_fields h1 h2 h3 h4
    have hndA : book.asks.Pairwise (fun a b => a.1 ≠ b.1) :=
      hA.imp (fun hlt => ne_of_lt hlt)
    by_cases hq' : 0 < ask'.quantity
    · rw [if_pos hq'] at hasks
      have hfinal : book'.asks =
          insertOrderAsc o.price { o with quantity := ask'.quantity } book.asks := by
        rw [hasks, h2]
        exact congrArg (fun z => insertOrderAsc o.price z book.asks) hask'
      constructor
      · exact Or.inr ⟨ask'.quantity, hq', hfinal⟩
      · intro e he
        by_cases hep : e.1 = o.price
        · refine Or.inr ⟨hep, ask'.quantity, hq', ?_⟩
          rw [hfinal, ← hep]
          exact queueAt_insertOrderAsc_self hA he
        · refine Or.inl ?_
          rw [hfinal, queueAt_insertOrderAsc_ne hep]
          exact queueAt_of_mem hndA he
    · rw [if_neg hq'] at hasks
      refine ⟨Or.inl hasks, fun e he => Or.inl ?_⟩
      rw [hasks]
      exact queueAt_of_mem hndA he

/-- C10: the same-side frame property of add_order. An incoming bid
leaves the whole bid ladder untouched except that a positive unmatched
remainder (the order itself with its remaining quantity, its other
fields intact) may be pushed at its own limit price; consequently every
pre-existing bid level keeps exactly its queue, except the level at the
order's own price, which can only gain the remainder at its back.
Mirrored for an incoming ask and the ask ladder. -/
theorem addOrder_same_side_frame {fuel : Nat} {o : Order} {book book' : OrderBook}
    {trades : List Trade}
    (hA : SortedAsc book.asks) (hB : SortedDesc book.bids)
    (h : addOrder fuel o book = some (book', trades)) :
    (o.side = Side.Bid →
      (book'.bids = book.bids ∨
        ∃ r, 0 < r ∧
          book'.bids = insertOrderDesc o.price { o with quantity := r } book.bids) ∧
      ∀ e ∈ book.bids, queueAt e.1 book'.bids = some e.2 ∨
        (e.1 = o.price ∧ ∃ r, 0 < r ∧
          queueAt e.1 book'.bids = some (e.2 ++ [{ o with quantity := r }]))) ∧
    (o.side = Side.Ask →
      (book'.asks = book.asks ∨
        ∃ r, 0 < r ∧
          book'.asks = insertOrderAsc o.price { o with quantity := r } book.asks) ∧
      ∀ e ∈ book.asks, queueAt e.1 book'.asks = some e.2 ∨
        (e.1 = o.price ∧ ∃ r, 0 < r ∧
          queueAt e.1 book'.asks = some (e.2 ++ [{ o with quantity := r }]))) :=
  addOrder_frame_aux hA hB h

/-! ## Maker pricing -/

/-- Trade `t` names as maker a resting order of ladder `l`, and carries
that order's price. -/
def MakerOf (l : Ladder) (t : Trade) : Prop :=
  ∃ e ∈ l, ∃ m ∈ e.2, m.id = t.maker_order_id ∧ t.price = m.price

/-- Every order in `l` descends (same id, at the same price key) from
an order of `l0`. -/
def IdAnc (l0 l : Ladder) : Prop :=
  ∀ e ∈ l, ∀ o ∈ e.2, ∃ e0 ∈ l0, e0.1 = e.1 ∧ ∃ m ∈ e0.2, m.id = o.id

lemma IdAnc_refl (l : Ladder) : IdAnc l l :=
  fun e he o ho => ⟨e, he, rfl, o, ho, rfl⟩

lemma mem_bidStepAsks {bid : Order} {p : ℚ} {ask : Order} {lvlRest : Level}
    {rest : Ladder} {e : ℚ × Level} (h : e ∈ bidStepAsks bid p ask lvlRest rest) :
    e = (p, if ask.quantity - decMin bid.quantity ask.quantity = 0 then lvlRest
      else { ask with quantity := ask.quantity - decMin bid.quantity ask.quantity } :: lvlRest) ∨
    e ∈ rest := by
  unfold bidStepAsks at h
  set lvl' := if ask.quantity - decMin bid.quantity ask.quantity = 0 then lvlRest
    else { ask with quantity := ask.quantity - decMin bid.quantity ask.quantity } :: lvlRest with hlvl
  have hmem : e ∈ (p, lvl') :: rest := by
    by_cases hemp : lvl'.isEmpty <;> simp only [hemp, if_true, if_false] at h
    · exact mem_removeKey h
    · exact h
  exact List.mem_cons.mp hmem

lemma mem_askStepBids {ask : Order} {p : ℚ} {bid : Order} {lvlRest : Level}
    {rest : Ladder} {e : ℚ × Level} (h : e ∈ askStepBids ask p bid lvlRest rest) :
    e = (p, if bid.quantity - decMin ask.quantity bid.quantity = 0 then lvlRest
      else { bid with quantity := bid.quantity - decMin ask.quantity bid.quantity } :: lvlRest) ∨
    e ∈ rest := by
  unfold askStepBids at h
  set lvl' := if bid.quantity - decMin ask.quantity bid.quantity = 0 then lvlRest
    else { bid with quantity := bid.quantity - decMin ask.quantity bid.quantity } :: lvlRest with hlvl
  have hmem : e ∈ (p, lvl') :: rest := by
    by_cases hemp : lvl'.isEmpty <;> simp only [hemp, if_true, if_false] at h
    · exact mem_removeKey h
    · exact h
  exact List.mem_cons.mp hmem

lemma matchBidGo_makers {fuel : Nat} {asks0 : Ladder} {bid bid' : Order}
    {asks asks' : Ladder} {acc tr : List Trade}
    (h : matchBidGo fuel bid asks acc = some (bid', asks', tr))
    (hkc : KeyCoherent asks0) (hanc : IdAnc asks0 asks)
    (hacc : ∀ t ∈ acc, MakerOf asks0 t) :
    ∀ t ∈ tr, MakerOf asks0 t := by
  induction fuel generalizing bid asks acc with
  | zero => simp [matchBidGo] at h
  | succ n ih =>
    rcases matchBidGo_succ_inv h with ⟨hq, he⟩ | ⟨hq, hasks, he⟩ |
        ⟨hq, p, lvl, rest, hasks, hp, he⟩ | ⟨hq, p, rest, hasks, hp, hrec⟩ |
        ⟨hq, p, ask, lvlRest, rest, hasks, hp, hrec⟩
    · simp only [Prod.mk.injEq] at he
      rw [he.2.2]; exact hacc
    · simp only [Prod.mk.injEq] at he
      rw [he.2.2]; exact hacc
    · simp only [Prod.mk.injEq] at he
      rw [he.2.2]; exact hacc
    · subst hasks
      refine ih hrec ?_ hacc
      exact fun e he' o ho => hanc e (mem_removeKey he') o ho
    · subst hasks
      have hhead : (p, ask :: lvlRest) ∈ ((p, ask :: lvlRest) :: rest : Ladder) :=
        List.mem_cons_self _ _
      obtain ⟨e0, he0, hkey, m, hm, hmid⟩ :=
        hanc (p, ask :: lvlRest) hhead ask (List.mem_cons_self _ _)
      have hmaker : MakerOf asks0 (bidStepTrade bid p ask) := by
        refine ⟨e0, he0, m, hm, ?_, ?_⟩
        · exact hmid
        · have : m.price = e0.1 := hkc e0 he0 m hm
          rw [bidStepTrade, this, hkey]
      refine ih hrec ?_ ?_
      · intro e he' o ho
        rcases mem_bidStepAsks he' with rfl | hrest
        · by_cases hz : ask.quantity - decMin bid.quantity ask.quantity = 0 <;>
            simp only [hz, if_true, if_false] at ho ⊢
          · exact hanc (p, ask :: lvlRest) hhead o (List.mem_cons.mpr (Or.inr ho))
          · rcases List.mem_cons.mp ho with rfl | ho'
            · exact hanc (p, ask :: lvlRest) hhead ask (List.mem_cons_self _ _)
            · exact hanc (p, ask :: lvlRest) hhead o (List.mem_cons.mpr (Or.inr ho'))
        · exact hanc e (List.mem_cons.mpr (Or.inr hrest)) o ho
      · intro t ht
        rcases List.mem_append.mp ht with ht' | ht'
        · exact hacc t ht'
        · rw [List.mem_singleton.mp ht']
          exact hmaker

lemma matchAskGo_makers {fuel : Nat} {bids0 : Ladder} {ask ask' : Order}
    {bids bids' : Ladder} {acc tr : List Trade}
    (h : matchAskGo fuel ask bids acc = some (ask', bids', tr))
    (hkc : KeyCoherent bids0) (hanc : IdAnc bids0 bids)
    (hacc : ∀ t ∈ acc, MakerOf bids0 t) :
    ∀ t ∈ tr, MakerOf bids0 t := by
  induction fuel generalizing ask bids acc with
  | zero => simp [matchAskGo] at h
  | succ n ih =>
    rcases matchAskGo_succ_inv h with ⟨hq, he⟩ | ⟨hq, hbids, he⟩ |
        ⟨hq, p, lvl, rest, hbids, hp, he⟩ | ⟨hq, p, rest, hbids, hp, hrec⟩ |
        ⟨hq, p, bid, lvlRest, rest, hbids, hp, hrec⟩
    · simp only [Prod.mk.injEq] at he
      rw [he.2.2]; exact hacc
    · simp only [Prod.mk.injEq] at he
      rw [he.2.2]; exact hacc
    · simp only [Prod.mk.injEq] at he
      rw [he.2.2]; exact hacc
    · subst hbids
      refine ih hrec ?_ hacc
      exact fun e he' o ho => hanc e (mem_removeKey he') o ho
    · subst hbids
      have hhead : (p, bid :: lvlRest) ∈ ((p, bid :: lvlRest) :: rest : Ladder) :=
        List.mem_cons_self _ _
      obtain ⟨e0, he0, hkey, m, hm, hmid⟩ :=
        hanc (p, bid :: lvlRest) hhead bid (List.mem_cons_self _ _)
      have hmaker : MakerOf bids0 (askStepTrade ask p bid) := by
        refine ⟨e0, he0, m, hm, ?_, ?_⟩
        · exact hmid
        · have : m.price = e0.1 := hkc e0 he0 m hm
          rw [askStepTrade, this, hkey]
      refine ih hrec ?_ ?_
      · intro e he' o ho
        rcases mem_askStepBids he' with rfl | hrest
        · by_cases hz : bid.quantity - decMin ask.quantity bid.quantity = 0 <;>
            simp only [hz, if_true, if_false] at ho ⊢
          · exact hanc (p, bid :: lvlRest) hhead o (List.mem_cons.mpr (Or.inr ho))
          · rcases List.mem_cons.mp ho with rfl | ho'
            · exact hanc (p, bid :: lvlRest) hhead bid (List.mem_cons_self _ _)
            · exact hanc (p, bid :: lvlRest) hhead o (List.mem_cons.mpr (Or.inr ho'))
        · exact hanc e (List.mem_cons.mpr (Or.inr hrest)) o ho
      · intro t ht
        rcases List.mem_append.mp ht with ht' | ht'
        · exact hacc t ht'
        · rw [List.mem_singleton.mp ht']
          exact hmaker

/-- C6: maker pricing. Every trade returned by add_order carries the
price of the resting (maker) order it matched — an order resting in the
opposing ladder before the call, identified by the trade's maker id —
and hence never the incoming (taker) order's limit price when the two
differ. (KeyCoherent is the representation invariant that resting
orders sit in the queue keyed by their own price, true by construction
in the source.) -/
theorem addOrder_maker_pricing {fuel : Nat} {o : Order} {book book' : OrderBook}
    {trades : List Trade}
    (hkA : KeyCoherent book.asks) (hkB : KeyCoherent book.bids)
    (h : addOrder fuel o book = some (book', trades)) :
    (o.side = Side.Bid → ∀ t ∈ trades, ∃ e ∈ book.asks, ∃ m ∈ e.2,
      m.id = t.maker_order_id ∧ t.price = m.price ∧
        (m.price ≠ o.price → t.price ≠ o.price)) ∧
    (o.side = Side.Ask → ∀ t ∈ trades, ∃ e ∈ book.bids, ∃ m ∈ e.2,
      m.id = t.maker_order_id ∧ t.price = m.price ∧
        (m.price ≠ o.price → t.price ≠ o.price)) := by
  unfold addOrder at h
  constructor
  · intro hside
    rw [hside] at h
    obtain ⟨bid', asks', hgo, hasks, hbids⟩ := matchBidOrder_inv h
    have hall := matchBidGo_makers hgo hkA (IdAnc_refl book.asks) (by simp)
    intro t ht
    obtain ⟨e, he, m, hm, hid, hpr⟩ := hall t ht
    exact ⟨e, he, m, hm, hid, hpr, fun hne => hpr ▸ hne⟩
  · intro hside
    rw [hside] at h
    obtain ⟨ask', bids', hgo, hbids, hasks⟩ := matchAskOrder_inv h
    have hall := matchAskGo_makers hgo hkB (IdAnc_refl book.bids) (by simp)
    intro t ht
    obtain ⟨e, he, m, hm, hid, hpr⟩ := hall t ht
    exact ⟨e, he, m, hm, hid, hpr, fun hne => hpr ▸ hne⟩

/-! ## Price priority -/

lemma matchBidGo_prices {fuel : Nat} {bid bid' : Order} {asks asks' : Ladder}
    {acc tr : List Trade}
    (h : matchBidGo fuel bid asks acc = some (bid', asks', tr))
    (hs : SortedAsc asks)
    (hlim : ∀ t ∈ acc, t.price ≤ bid.price)
    (hchain : List.Chain' (· ≤ ·) (acc.map Trade.price))
    (hbound : ∀ t ∈ acc, ∀ e ∈ asks, t.price ≤ e.1) :
    List.Chain' (· ≤ ·) (tr.map Trade.price) ∧ ∀ t ∈ tr, t.price ≤ bid.price := by
  induction fuel generalizing bid asks acc with
  | zero => simp [matchBidGo] at h
  | succ n ih =>
    rcases matchBidGo_succ_inv h with ⟨hq, he⟩ | ⟨hq, hasks, he⟩ |
        ⟨hq, p, lvl, rest, hasks, hp, he⟩ | ⟨hq, p, rest, hasks, hp, hrec⟩ |
        ⟨hq, p, ask, lvlRest, rest, hasks, hp, hrec⟩
    · simp only [Prod.mk.injEq] at he
      rw [he.2.2]; exact ⟨hchain, hlim⟩
    · simp only [Prod.mk.injEq] at he
      rw [he.2.2]; exact ⟨hchain, hlim⟩
    · simp only [Prod.mk.injEq] at he
      rw [he.2.2]; exact ⟨hchain, hlim⟩
    · subst hasks
      refine ih hrec (removeKey_pairwise hs) hlim hchain ?_
      exact fun t ht e he' => hbound t ht e (mem_removeKey he')
    · subst hasks
      have hple : p ≤ bid.price := not_lt.mp hp
      have hhead : ((p, ask :: lvlRest) : ℚ × Level) ∈ ((p, ask :: lvlRest) :: rest : Ladder) :=
        List.mem_cons_self _ _
      have haccp : ∀ t ∈ acc, t.price ≤ p := fun t ht => hbound t ht _ hhead
      have hrestkeys : ∀ e ∈ rest, p < e.1 := (List.pairwise_cons.mp hs).1
      have hchain' :
          List.Chain' (· ≤ ·) ((acc ++ [bidStepTrade bid p ask]).map Trade.price) := by
        rw [List.map_append, List.chain'_append]
        refine ⟨hchain, by simp, ?_⟩
        intro x hx y hy
        obtain ⟨t', ht', rfl⟩ := List.mem_map.mp (List.mem_of_mem_getLast? hx)
        have hyp : y = p := by
          simp only [List.map_cons, List.map_nil, List.head?_cons, Option.mem_def,
            Option.some.injEq] at hy
          rw [← hy]; rfl
        rw [hyp]
        exact haccp t' ht'
      have hlim' : ∀ t ∈ acc ++ [bidStepTrade bid p ask],
          t.price ≤ (bidStepOrd bid ask).price := by
        intro t ht
        rcases List.mem_append.mp ht with ht' | ht'
        · exact hlim t ht'
        · rw [List.mem_singleton.mp ht']
          exact hple
      have hbound' : ∀ t ∈ acc ++ [bidStepTrade bid p ask],
          ∀ e ∈ bidStepAsks bid p ask lvlRest rest, t.price ≤ e.1 := by
        intro t ht e he'
        rcases mem_bidStepAsks he' with rfl | hrest
        · rcases List.mem_append.mp ht with ht' | ht'
          · exact haccp t ht'
          · rw [List.mem_singleton.mp ht']
            exact le_rfl
        · rcases List.mem_append.mp ht with ht' | ht'
          · exact hbound t ht' e (List.mem_cons.mpr (Or.inr hrest))
          · rw [List.mem_singleton.mp ht']
            exact le_of_lt (hrestkeys e hrest)
      have hres := ih hrec (bidStepAsks_sorted hs) hlim' hchain' hbound'
      exact ⟨hres.1, fun t ht => hres.2 t ht⟩

lemma matchAskGo_prices {fuel : Nat} {ask ask' : Order} {bids bids' : Ladder}
    {acc tr : List Trade}
    (h : matchAskGo fuel ask bids acc = some (ask', bids', tr))
    (hs : SortedDesc bids)
    (hlim : ∀ t ∈ acc, ask.price ≤ t.price)
    (hchain : List.Chain' (fun a b => b ≤ a) (acc.map Trade.price))
    (hbound : ∀ t ∈ acc, ∀ e ∈ bids, e.1 ≤ t.price) :
    List.Chain' (fun a b => b ≤ a) (tr.map Trade.price) ∧
      ∀ t ∈ tr, ask.price ≤ t.price := by
  induction fuel generalizing ask bids acc with
  | zero => simp [matchAskGo] at h
  | succ n ih =>
    rcases matchAskGo_succ_inv h with ⟨hq, he⟩ | ⟨hq, hbids, he⟩ |
        ⟨hq, p, lvl, rest, hbids, hp, he⟩ | ⟨hq, p, rest, hbids, hp, hrec⟩ |
        ⟨hq, p, bid, lvlRest, rest, hbids, hp, hrec⟩
    · simp only [Prod.mk.injEq] at he
      rw [he.2.2]; exact ⟨hchain, hlim⟩
    · simp only [Prod.mk.injEq] at he
      rw [he.2.2]; exact ⟨hchain, hlim⟩
    · simp only [Prod.mk.injEq] at he
      rw [he.2.2]; exact ⟨hchain, hlim⟩
    · subst hbids
      refine ih hrec (removeKey_pairwise hs) hlim hchain ?_
      exact fun t ht e he' => hbound t ht e (mem_removeKey he')
    · subst hbids
      have hple : ask.price ≤ p := not_lt.mp hp
      have hhead : ((p, bid :: lvlRest) : ℚ × Level) ∈ ((p, bid :: lvlRest) :: rest : Ladder) :=
        List.mem_cons_self _ _
      have haccp : ∀ t ∈ acc, p ≤ t.price := fun t ht => hbound t ht _ hhead
      have hrestkeys : ∀ e ∈ rest, e.1 < p := (List.pairwise_cons.mp hs).1
      have hchain' :
          List.Chain' (fun a b => b ≤ a)
            ((acc ++ [askStepTrade ask p bid]).map Trade.price) := by
        rw [List.map_append, List.chain'_append]
        refine ⟨hchain, by simp, ?_⟩
        intro x hx y hy
        obtain ⟨t', ht', rfl⟩ := List.mem_map.mp (List.mem_of_mem_getLast? hx)
        have hyp : y = p := by
          simp only [List.map_cons, List.map_nil, List.head?_cons, Option.mem_def,
            Option.some.injEq] at hy
          rw [← hy]; rfl
        rw [hyp]
        exact haccp t' ht'
      have hlim' : ∀ t ∈ acc ++ [askStepTrade ask p bid],
          (askStepOrd ask bid).price ≤ t.price := by
        intro t ht
        rcases List.mem_append.mp ht with ht' | ht'
        · exact hlim t ht'
        · rw [List.mem_singleton.mp ht']
          exact hple
      have hbound' : ∀ t ∈ acc ++ [askStepTrade ask p bid],
          ∀ e ∈ askStepBids ask p bid lvlRest rest, e.1 ≤ t.price := by
        intro t ht e he'
        rcases mem_askStepBids he' with rfl | hrest
        · rcases List.mem_append.mp ht with ht' | ht'
          · exact haccp t ht'
          · rw [List.mem_singleton.mp ht']
            exact le_rfl
        · rcases List.mem_append.mp ht with ht' | ht'
          · exact hbound t ht' e (List.mem_cons.mpr (Or.inr hrest))
          · rw [List.mem_singleton.mp ht']
            exact le_of_lt (hrestkeys e hrest)
      have hres := ih hrec (askStepBids_sorted hs) hlim' hchain' hbound'
      exact ⟨hres.1, fun t ht => hres.2 t ht⟩

/-- C7: price priority. Across the trades of one add_order call, the
matched prices are monotonically non-worsening from the taker's
viewpoint — non-decreasing for an incoming bid matching asks,
non-increasing for an incoming ask matching bids — and every trade's
price satisfies the incoming order's limit (≤ the bid limit for a bid,
≥ the ask limit for an ask). -/
theorem addOrder_price_priority {fuel : Nat} {o : Order} {book book' : OrderBook}
    {trades : List Trade}
    (hA : SortedAsc book.asks) (hB : SortedDesc book.bids)
    (h : addOrder fuel o book = some (book', trades)) :
    (o.side = Side.Bid → List.Chain' (· ≤ ·) (trades.map Trade.price) ∧
      ∀ t ∈ trades, t.price ≤ o.price) ∧
    (o.side = Side.Ask → List.Chain' (fun a b => b ≤ a) (trades.map Trade.price) ∧
      ∀ t ∈ trades, o.price ≤ t.price) := by
  unfold addOrder at h
  constructor
  · intro hside
    rw [hside] at h
    obtain ⟨bid', asks', hgo, -, -⟩ := matchBidOrder_inv h
    exact matchBidGo_prices hgo hA (by simp) (by simp) (by simp)
  · intro hside
    rw [hside] at h
    obtain ⟨ask', bids', hgo, -, -⟩ := matchAskOrder_inv h
    exact matchAskGo_prices hgo hB (by simp) (by simp) (by simp)

def oH1 : Order := { id := "A1", price := 5, quantity := 1, side := Side.Ask, timestamp := 0 }

def oH2 : Order := { id := "A3", price := 5, quantity := 2, side := Side.Ask, timestamp := 1 }

def oH3 : Order := { id := "BH", price := 6, quantity := 2, side := Side.Bid, timestamp := 2 }

def bookH : OrderBook := { asks := [(5, [oH1, oH2])], bids := [] }

def bookH' : OrderBook := { asks := [(5, [{ oH2 with quantity := 1 }])], bids := [] }

def tH1 : Trade :=
  { maker_order_id := "A1", taker_order_id := "BH", price := 5, quantity := 1 }

def tH2 : Trade :=
  { maker_order_id := "A3", taker_order_id := "BH", price := 5, quantity := 1 }

/-- Witness for C7: a bid for 2 crossing two resting asks produces two
trades with non-decreasing prices, both within the bid's limit. -/
theorem addOrder_price_priority_witness :
    (oH3.side = Side.Bid → List.Chain' (· ≤ ·) ([tH1, tH2].map Trade.price) ∧
      ∀ t ∈ [tH1, tH2], t.price ≤ oH3.price) ∧
    (oH3.side = Side.Ask → List.Chain' (fun a b => b ≤ a) ([tH1, tH2].map Trade.price) ∧
      ∀ t ∈ [tH1, tH2], oH3.price ≤ t.price) := by
  have h : addOrder 10 oH3 bookH = some (bookH', [tH1, tH2]) := by
    with_unfolding_all decide
  exact addOrder_price_priority (by decide) (by decide) h

/-! ## Time priority (FIFO consumption within a price level) -/

lemma decMin_choice (a b : ℚ) : decMin a b = a ∨ decMin a b = b := by
  unfold decMin
  by_cases hab : a ≤ b
  · exact Or.inl (if_pos hab)
  · exact Or.inr (if_neg hab)

lemma makersAt_append (p : ℚ) (acc : List Trade) (t : Trade) :
    makersAt p (acc ++ [t]) =
      makersAt p acc ++ (if t.price = p then [t.maker_order_id] else []) := by
  unfold makersAt
  rw [List.filter_append, List.map_append]
  by_cases htp : t.price = p <;> simp [htp]

lemma take_drop_cons {α : Type} {l : List α} {k : Nat} {a : α} {t : List α}
    (h : l.drop k = a :: t) :
    l.take (k + 1) = l.take k ++ [a] ∧ l.drop (k + 1) = t := by
  induction l generalizing k with
  | nil => rw [List.drop_nil] at h; cases h
  | cons x xs ih =>
    cases k with
    | zero =>
      simp only [List.drop_zero] at h
      injection h with h1 h2
      subst h1
      subst h2
      simp
    | succ k =>
      rw [List.drop_succ_cons] at h
      obtain ⟨h1, h2⟩ := ih h
      refine ⟨?_, ?_⟩
      · rw [List.take_succ_cons, List.take_succ_cons, h1, List.cons_append]
      · rw [List.drop_succ_cons]
        exact h2

lemma queueAt_removeKey_cases (p x : ℚ) (l : Ladder) :
    queueAt p (removeKey x l) = none ∨ queueAt p (removeKey x l) = queueAt p l := by
  by_cases hpx : p = x
  · subst hpx
    exact Or.inl (queueAt_removeKey_self p l)
  · exact Or.inr (queueAt_removeKey hpx l)

lemma queueAt_bidStepAsks_cases (bid : Order) (p x : ℚ) (ask : Order) (lvlRest : Level)
    (rest : Ladder) :
    queueAt x (bidStepAsks bid p ask lvlRest rest) = none ∨
    queueAt x (bidStepAsks bid p ask lvlRest rest) =
      queueAt x ((p, (if ask.quantity - decMin bid.quantity ask.quantity = 0 then lvlRest
        else { ask with quantity := ask.quantity - decMin bid.quantity ask.quantity }
          :: lvlRest)) :: rest) := by
  unfold bidStepAsks
  set lvl' := if ask.quantity - decMin bid.quantity ask.quantity = 0 then lvlRest
    else { ask with quantity := ask.quantity - decMin bid.quantity ask.quantity } :: lvlRest
    with hlvl
  by_cases hemp : lvl'.isEmpty <;> simp only [hemp, if_true, if_false]
  · exact queueAt_removeKey_cases x bid.price _
  · exact Or.inr rfl

lemma queueAt_askStepBids_cases (ask : Order) (p x : ℚ) (bid : Order) (lvlRest : Level)
    (rest : Ladder) :
    queueAt x (askStepBids ask p bid lvlRest rest) = none ∨
    queueAt x (askStepBids ask p bid lvlRest rest) =
      queueAt x ((p, (if bid.quantity - decMin ask.quantity bid.quantity = 0 then lvlRest
        else { bid with quantity := bid.quantity - decMin ask.quantity bid.quantity }
          :: lvlRest)) :: rest) := by
  unfold askStepBids
  set lvl' := if bid.quantity - decMin ask.quantity bid.quantity = 0 then lvlRest
    else { bid with quantity := bid.quantity - decMin ask.quantity bid.quantity } :: lvlRest
    with hlvl
  by_cases hemp : lvl'.isEmpty <;> simp only [hemp, if_true, if_false]
  · exact queueAt_removeKey_cases x ask.price _
  · exact Or.inr rfl

/-- The running invariant of the FIFO argument: for each level of the
original ladder `l0`, the makers traded so far at that price are the
first `k` resting ids in original order, and — if the level still
exists in the current ladder `l` — its queue holds exactly the
remaining ids, in order. -/
def TPinv (l0 l : Ladder) (acc : List Trade) : Prop :=
  ∀ e0 ∈ l0, ∃ k, makersAt e0.1 acc = (e0.2.map Order.id).take k ∧
    ∀ q ∈ queueAt e0.1 l, q.map Order.id = (e0.2.map Order.id).drop k

lemma matchBidGo_fifo {fuel : Nat} {asks0 : Ladder} {bid bid' : Order}
    {asks asks' : Ladder} {acc tr : List Trade}
    (h : matchBidGo fuel bid asks acc = some (bid', asks', tr))
    (hinv : TPinv asks0 asks acc) :
    ∀ e0 ∈ asks0, ∃ k, makersAt e0.1 tr = (e0.2.map Order.id).take k := by
  induction fuel generalizing bid asks acc with
  | zero => simp [matchBidGo] at h
  | succ n ih =>
    rcases matchBidGo_succ_inv h with ⟨hq, he⟩ | ⟨hq, hasks, he⟩ |
        ⟨hq, p, lvl, rest, hasks, hp, he⟩ | ⟨hq, p, rest, hasks, hp, hrec⟩ |
        ⟨hq, p, ask, lvlRest, rest, hasks, hp, hrec⟩
    · simp only [Prod.mk.injEq] at he
      rw [he.2.2]
      intro e0 h0
      obtain ⟨k, hm, -⟩ := hinv e0 h0
      exact ⟨k, hm⟩
    · simp only [Prod.mk.injEq] at he
      rw [he.2.2]
      intro e0 h0
      obtain ⟨k, hm, -⟩ := hinv e0 h0
      exact ⟨k, hm⟩
    · simp only [Prod.mk.injEq] at he
      rw [he.2.2]
      intro e0 h0
      obtain ⟨k, hm, -⟩ := hinv e0 h0
      exact ⟨k, hm⟩
    · subst hasks
      refine ih hrec ?_
      intro e0 h0
      obtain ⟨k, hm, hqs⟩ := hinv e0 h0
      refine ⟨k, hm, ?_⟩
      intro q hq'
      rcases queueAt_removeKey_cases e0.1 bid.price ((p, []) :: rest) with hnone | hsame
      · rw [Option.mem_def, hnone] at hq'
        cases hq'
      · rw [Option.mem_def, hsame] at hq'
        exact hqs q hq'
    · subst hasks
      by_cases hz : ask.quantity - decMin bid.quantity ask.quantity = 0
      · refine ih hrec ?_
        intro e0 h0
        obtain ⟨k, hm, hqs⟩ := hinv e0 h0
        by_cases hep : e0.1 = p
        · have hqhead : queueAt e0.1 ((p, ask :: lvlRest) :: rest) = some (ask :: lvlRest) := by
            rw [queueAt, if_pos hep.symm]
          have hids := hqs _ hqhead
          rw [List.map_cons] at hids
          obtain ⟨htk, hdk⟩ := take_drop_cons hids.symm
          refine ⟨k + 1, ?_, ?_⟩
          · rw [makersAt_append, hm,
              if_pos (show (bidStepTrade bid p ask).price = e0.1 from hep.symm), htk]
            rfl
          · intro q hq'
            rcases queueAt_bidStepAsks_cases bid p e0.1 ask lvlRest rest with hnone | hsame
            · rw [Option.mem_def, hnone] at hq'
              cases hq'
            · rw [if_pos hz] at hsame
              rw [Option.mem_def, hsame, queueAt, if_pos hep.symm] at hq'
              injection hq' with hq''
              rw [← hq'', hdk]
        · refine ⟨k, ?_, ?_⟩
          · rw [makersAt_append,
              if_neg (show ¬ (bidStepTrade bid p ask).price = e0.1 from
                fun hc => hep (Eq.symm hc)),
              List.append_nil, hm]
          · intro q hq'
            rcases queueAt_bidStepAsks_cases bid p e0.1 ask lvlRest rest with hnone | hsame
            · rw [Option.mem_def, hnone] at hq'
              cases hq'
            · rw [if_pos hz] at hsame
              rw [Option.mem_def, hsame, queueAt, if_neg (fun hc => hep hc.symm)] at hq'
              refine hqs q ?_
              rw [Option.mem_def, queueAt, if_neg (fun hc => hep hc.symm)]
              exact hq'
      · have htqb : decMin bid.quantity ask.quantity = bid.quantity := by
          rcases decMin_choice bid.quantity ask.quantity with hc | hc
          · exact hc
          · exact absurd (by rw [hc]; ring) hz
        have hq0 : ¬ 0 < (bidStepOrd bid ask).quantity := by
          simp only [bidStepOrd, htqb]
          simp
        cases n with
        | zero => simp [matchBidGo] at hrec
        | succ m =>
          rcases matchBidGo_succ_inv hrec with ⟨-, he⟩ | ⟨hq2, -, -⟩ |
              ⟨hq2, -, -, -, -, -, -⟩ | ⟨hq2, -, -, -, -, -⟩ | ⟨hq2, -, -, -, -, -, -, -⟩
          · simp only [Prod.mk.injEq] at he
            rw [he.2.2]
            intro e0 h0
            obtain ⟨k, hm, hqs⟩ := hinv e0 h0
            by_cases hep : e0.1 = p
            · have hqhead : queueAt e0.1 ((p, ask :: lvlRest) :: rest) =
                  some (ask :: lvlRest) := by
                rw [queueAt, if_pos hep.symm]
              have hids := hqs _ hqhead
              rw [List.map_cons] at hids
              obtain ⟨htk, -⟩ := take_drop_cons hids.symm
              refine ⟨k + 1, ?_⟩
              rw [makersAt_append, hm,
                if_pos (show (bidStepTrade bid p ask).price = e0.1 from hep.symm), htk]
              rfl
            · refine ⟨k, ?_⟩
              rw [makersAt_append,
                if_neg (show ¬ (bidStepTrade bid p ask).price = e0.1 from
                  fun hc => hep (Eq.symm hc)),
                List.append_nil, hm]
          all_goals exact absurd hq2 hq0

lemma matchAskGo_fifo {fuel : Nat} {bids0 : Ladder} {ask ask' : Order}
    {bids bids' : Ladder} {acc tr : List Trade}
    (h : matchAskGo fuel ask bids acc = some (ask', bids', tr))
    (hinv : TPinv bids0 bids acc) :
    ∀ e0 ∈ bids0, ∃ k, makersAt e0.1 tr = (e0.2.map Order.id).take k := by
  induction fuel generalizing ask bids acc with
  | zero => simp [matchAskGo] at h
  | succ n ih =>
    rcases matchAskGo_succ_inv h with ⟨hq, he⟩ | ⟨hq, hbids, he⟩ |
        ⟨hq, p, lvl, rest, hbids, hp, he⟩ | ⟨hq, p, rest, hbids, hp, hrec⟩ |
        ⟨hq, p, bid, lvlRest, rest, hbids, hp, hrec⟩
    · simp only [Prod.mk.injEq] at he
      rw [he.2.2]
      intro e0 h0
      obtain ⟨k, hm, -⟩ := hinv e0 h0
      exact ⟨k, hm⟩
    · simp only [Prod.mk.injEq] at he
      rw [he.2.2]
      intro e0 h0
      obtain ⟨k, hm, -⟩ := hinv e0 h0
      exact ⟨k, hm⟩
    · simp only [Prod.mk.injEq] at he
      rw [he.2.2]
      intro e0 h0
      obtain ⟨k, hm, -⟩ := hinv e0 h0
      exact ⟨k, hm⟩
    · subst hbids
      refine ih hrec ?_
      intro e0 h0
      obtain ⟨k, hm, hqs⟩ := hinv e0 h0
      refine ⟨k, hm, ?_⟩
      intro q hq'
      rcases queueAt_removeKey_cases e0.1 ask.price ((p, []) :: rest) with hnone | hsame
      · rw [Option.mem_def, hnone] at hq'
        cases hq'
      · rw [Option.mem_def, hsame] at hq'
        exact hqs q hq'
    · subst hbids
      by_cases hz : bid.quantity - decMin ask.quantity bid.quantity = 0
      · refine ih hrec ?_
        intro e0 h0
        obtain ⟨k, hm, hqs⟩ := hinv e0 h0
        by_cases hep : e0.1 = p
        · have hqhead : queueAt e0.1 ((p, bid :: lvlRest) :: rest) = some (bid :: lvlRest) := by
            rw [queueAt, if_pos hep.symm]
          have hids := hqs _ hqhead
          rw [List.map_cons] at hids
          obtain ⟨htk, hdk⟩ := take_drop_cons hids.symm
          refine ⟨k + 1, ?_, ?_⟩
          · rw [makersAt_append, hm,
              if_pos (show (askStepTrade ask p bid).price = e0.1 from hep.symm), htk]
            rfl
          · intro q hq'
            rcases queueAt_askStepBids_cases ask p e0.1 bid lvlRest rest with hnone | hsame
            · rw [Option.mem_def, hnone] at hq'
              cases hq'
            · rw [if_pos hz] at hsame
              rw [Option.mem_def, hsame, queueAt, if_pos hep.symm] at hq'
              injection hq' with hq''
              rw [← hq'', hdk]
        · refine ⟨k, ?_, ?_⟩
          · rw [makersAt_append,
              if_neg (show ¬ (askStepTrade ask p bid).price = e0.1 from
                fun hc => hep (Eq.symm hc)),
              List.append_nil, hm]
          · intro q hq'
            rcases queueAt_askStepBids_cases ask p e0.1 bid lvlRest rest with hnone | hsame
            · rw [Option.mem_def, hnone] at hq'
              cases hq'
            · rw [if_pos hz] at hsame
              rw [Option.mem_def, hsame, queueAt, if_neg (fun hc => hep hc.symm)] at hq'
              refine hqs q ?_
              rw [Option.mem_def, queueAt, if_neg (fun hc => hep hc.symm)]
              exact hq'
      · have htqb : decMin ask.quantity bid.quantity = ask.quantity := by
          rcases decMin_choice ask.quantity bid.quantity with hc | hc
          · exact hc
          · exact absurd (by rw [hc]; ring) hz
        have hq0 : ¬ 0 < (askStepOrd ask bid).quantity := by
          simp only [askStepOrd, htqb]
          simp
        cases n with
        | zero => simp [matchAskGo] at hrec
        | succ m =>
          rcases matchAskGo_succ_inv hrec with ⟨-, he⟩ | ⟨hq2, -, -⟩ |
              ⟨hq2, -, -, -, -, -, -⟩ | ⟨hq2, -, -, -, -, -⟩ | ⟨hq2, -, -, -, -, -, -, -⟩
          · simp only [Prod.mk.injEq] at he
            rw [he.2.2]
            intro e0 h0
            obtain ⟨k, hm, hqs⟩ := hinv e0 h0
            by_cases hep : e0.1 = p
            · have hqhead : queueAt e0.1 ((p, bid :: lvlRest) :: rest) =
                  some (bid :: lvlRest) := by
                rw [queueAt, if_pos hep.symm]
              have hids := hqs _ hqhead
              rw [List.map_cons] at hids
              obtain ⟨htk, -⟩ := take_drop_cons hids.symm
              refine ⟨k + 1, ?_⟩
              rw [makersAt_append, hm,
                if_pos (show (askStepTrade ask p bid).price = e0.1 from hep.symm), htk]
              rfl
            · refine ⟨k, ?_⟩
              rw [makersAt_append,
                if_neg (show ¬ (askStepTrade ask p bid).price = e0.1 from
                  fun hc => hep (Eq.symm hc)),
                List.append_nil, hm]
          all_goals exact absurd hq2 hq0

/-- C8: time priority within one price level. For each level of the
opposing ladder, the maker ids of the trades executed at that price
form a prefix of the level's queue ids in original insertion order
(each match consumes the front, oldest order first); and on the
incoming order's own side every pre-existing queue is unchanged except
that a positive remainder is appended at the back of the queue at the
order's own price — queues are never reordered. -/
theorem addOrder_time_priority {fuel : Nat} {o : Order} {book book' : OrderBook}
    {trades : List Trade}
    (hA : SortedAsc book.asks) (hB : SortedDesc book.bids)
    (h : addOrder fuel o book = some (book', trades)) :
    (o.side = Side.Bid → ∀ e ∈ book.asks, ∃ k,
      makersAt e.1 trades = (e.2.map Order.id).take k) ∧
    (o.side = Side.Ask → ∀ e ∈ book.bids, ∃ k,
      makersAt e.1 trades = (e.2.map Order.id).take k) ∧
    (o.side = Side.Bid → ∀ e ∈ book.bids, ∀ q, queueAt e.1 book'.bids = some q →
      q = e.2 ∨ ∃ r, 0 < r ∧ q = e.2 ++ [{ o with quantity := r }]) ∧
    (o.side = Side.Ask → ∀ e ∈ book.asks, ∀ q, queueAt e.1 book'.asks = some q →
      q = e.2 ∨ ∃ r, 0 < r ∧ q = e.2 ++ [{ o with quantity := r }]) := by
  have hframe := addOrder_frame_aux hA hB h
  refine ⟨?_, ?_, ?_, ?_⟩
  · intro hside
    have h' := h
    unfold addOrder at h'
    rw [hside] at h'
    obtain ⟨bid', asks', hgo, -, -⟩ := matchBidOrder_inv h'
    refine matchBidGo_fifo hgo ?_
    intro e0 h0
    refine ⟨0, by simp [makersAt], ?_⟩
    intro q hq'
    have hnd : book.asks.Pairwise (fun a b => a.1 ≠ b.1) :=
      hA.imp (fun hlt => ne_of_lt hlt)
    rw [Option.mem_def, queueAt_of_mem hnd h0] at hq'
    injection hq' with hq''
    rw [← hq'']
    simp
  · intro hside
    have h' := h
    unfold addOrder at h'
    rw [hside] at h'
    obtain ⟨ask', bids', hgo, -, -⟩ := matchAskOrder_inv h'
    refine matchAskGo_fifo hgo ?_
    intro e0 h0
    refine ⟨0, by simp [makersAt], ?_⟩
    intro q hq'
    have hnd : book.bids.Pairwise (fun a b => a.1 ≠ b.1) :=
      hB.imp (fun hlt => ne_of_gt hlt)
    rw [Option.mem_def, queueAt_of_mem hnd h0] at hq'
    injection hq' with hq''
    rw [← hq'']
    simp
  · intro hside e he q hq'
    rcases (hframe.1 hside).2 e he with hsome | ⟨hep, r, hr, hsome⟩
    · rw [hq'] at hsome
      injection hsome with hq''
      exact Or.inl hq''
    · rw [hq'] at hsome
      injection hsome with hq''
      exact Or.inr ⟨r, hr, hq''⟩
  · intro hside e he q hq'
    rcases (hframe.2 hside).2 e he with hsome | ⟨hep, r, hr, hsome⟩
    · rw [hq'] at hsome
      injection hsome with hq''
      exact Or.inl hq''
    · rw [hq'] at hsome
      injection hsome with hq''
      exact Or.inr ⟨r, hr, hq''⟩

/-- Witness for C8: a bid crossing the level at 5 consumes A1 (oldest)
then A3, the prefix [A1, A3] of the queue's ids in insertion order. -/
theorem addOrder_time_priority_witness :
    (oH3.side = Side.Bid → ∀ e ∈ bookH.asks, ∃ k,
      makersAt e.1 [tH1, tH2] = (e.2.map Order.id).take k) ∧
    (oH3.side = Side.Ask → ∀ e ∈ bookH.bids, ∃ k,
      makersAt e.1 [tH1, tH2] = (e.2.map Order.id).take k) ∧
    (oH3.side = Side.Bid → ∀ e ∈ bookH.bids, ∀ q, queueAt e.1 bookH'.bids = some q →
      q = e.2 ∨ ∃ r, 0 < r ∧ q = e.2 ++ [{ oH3 with quantity := r }]) ∧
    (oH3.side = Side.Ask → ∀ e ∈ bookH.asks, ∀ q, queueAt e.1 bookH'.asks = some q →
      q = e.2 ∨ ∃ r, 0 < r ∧ q = e.2 ++ [{ oH3 with quantity := r }]) := by
  have h : addOrder 10 oH3 bookH = some (bookH', [tH1, tH2]) := by
    with_unfolding_all decide
  exact addOrder_time_priority (by decide) (by decide) h

/-! ## Quantity conservation -/

/-- C5 (amended): quantity conservation holds for every add_order call
whose incoming quantity is non-negative, from a book whose resting
quantities are positive (the code maintains the latter, and a negative
incoming quantity falsifies the unrestricted claim — see the
counterexample): the returned trades sum to at most the incoming
quantity, and their sum plus the rested remainder `r` (with `r = 0`
exactly when nothing rests, in which case the order's own ladder is
untouched) equals the incoming quantity. -/
theorem addOrder_conservation {fuel : Nat} {o : Order} {book book' : OrderBook}
    {trades : List Trade}
    (hq0 : 0 ≤ o.quantity) (hpa : PosQty book.asks) (hpb : PosQty book.bids)
    (h : addOrder fuel o book = some (book', trades)) :
    tradeSum trades ≤ o.quantity ∧
    ∃ r, 0 ≤ r ∧ tradeSum trades + r = o.quantity ∧
      (o.side = Side.Bid →
        book'.bids = (if 0 < r then insertOrderDesc o.price { o with quantity := r } book.bids
          else book.bids)) ∧
      (o.side = Side.Ask →
        book'.asks = (if 0 < r then insertOrderAsc o.price { o with quantity := r } book.asks
          else book.asks)) := by
  unfold addOrder at h
  cases hside : o.side <;> rw [hside] at h
  · obtain ⟨bid', asks', hgo, hasks, hbids⟩ := matchBidOrder_inv h
    obtain ⟨hsum, hq0', hpos'⟩ := matchBidGo_conserve hgo hq0 hpa
    obtain ⟨h1, h2, h3, h4⟩ := matchBidGo_fields hgo
    have hbid' : bid' = { o with quantity := bid'.quantity } :=
      order_eq_of_fields h1 h2 h3 h4
    rw [show tradeSum ([] : List Trade) = 0 from rfl, add_zero] at hsum
    rw [hside] at hbid'
    refine ⟨by linarith, bid'.quantity, hq0', by linarith, fun hc => ?_, fun hc => ?_⟩
    · rw [hbids, h2]
      exact congrArg
        (fun z => if 0 < bid'.quantity then insertOrderDesc o.price z book.bids
          else book.bids) hbid'
    · simp at hc
  · obtain ⟨ask', bids', hgo, hbids, hasks⟩ := matchAskOrder_inv h
    obtain ⟨hsum, hq0', hpos'⟩ := matchAskGo_conserve hgo hq0 hpb
    obtain ⟨h1, h2, h3, h4⟩ := matchAskGo_fields hgo
    have hask' : ask' = { o with quantity := ask'.quantity } :=
      order_eq_of_fields h1 h2 h3 h4
    rw [show tradeSum ([] : List Trade) = 0 from rfl, add_zero] at hsum
    rw [hside] at hask'
    refine ⟨by linarith, ask'.quantity, hq0', by linarith, fun hc => ?_, fun hc => ?_⟩
    · simp at hc
    · rw [hasks, h2]
      exact congrArg
        (fun z => if 0 < ask'.quantity then insertOrderAsc o.price z book.asks
          else book.asks) hask'

def oNeg : Order := { id := "N", price := 10, quantity := -1, side := Side.Bid, timestamp := 0 }

/-- C5, counterexample to the claim as stated ("for every add_order
call"): a bid with quantity −1 is accepted by add_order, produces no
trades and rests nothing, so the trade-quantity sum 0 is NOT ≤ the
original incoming quantity −1, and 0 plus the rested quantity (0)
differs from the original quantity. -/
theorem addOrder_conservation_counterexample :
    addOrder 1 oNeg emptyBook = some (emptyBook, []) ∧
    ¬ tradeSum [] ≤ oNeg.quantity ∧
    ¬ tradeSum [] + 0 = oNeg.quantity := by
  refine ⟨by with_unfolding_all decide, by with_unfolding_all decide,
    by with_unfolding_all decide⟩

def oE1 : Order := { id := "B1", price := 10, quantity := 5, side := Side.Bid, timestamp := 0 }

def oE2 : Order := { id := "A1", price := 9, quantity := 3, side := Side.Ask, timestamp := 1 }

def bookE : OrderBook := { asks := [], bids := [(10, [oE1])] }

def bookE' : OrderBook :=
  { asks := [], bids := [(10, [{ oE1 with quantity := 2 }])] }

def tE : Trade :=
  { maker_order_id := "B1", taker_order_id := "A1", price := 10, quantity := 3 }

/-- Witness for C6: Scenario B — an ask at 9 matches the resting bid
B1 at 10; the trade's price is 10, the maker's price, not the taker's
limit 9. -/
theorem addOrder_maker_pricing_witness :
    (oE2.side = Side.Bid → ∀ t ∈ [tE], ∃ e ∈ bookE.asks, ∃ m ∈ e.2,
      m.id = t.maker_order_id ∧ t.price = m.price ∧
        (m.price ≠ oE2.price → t.price ≠ oE2.price)) ∧
    (oE2.side = Side.Ask → ∀ t ∈ [tE], ∃ e ∈ bookE.bids, ∃ m ∈ e.2,
      m.id = t.maker_order_id ∧ t.price = m.price ∧
        (m.price ≠ oE2.price → t.price ≠ oE2.price)) := by
  have h : addOrder 10 oE2 bookE = some (bookE', [tE]) := by with_unfolding_all decide
  exact addOrder_maker_pricing (by decide) (by decide) h

/-- Witness for C5 (amended): the spec's Scenario B — an ask for 3
against a resting bid of 5 trades fully (sum 3 = original 3, rest 0). -/
theorem addOrder_conservation_witness :
    tradeSum [tE] ≤ oE2.quantity ∧
    ∃ r, 0 ≤ r ∧ tradeSum [tE] + r = oE2.quantity ∧
      (oE2.side = Side.Bid →
        bookE'.bids = (if 0 < r then insertOrderDesc oE2.price { oE2 with quantity := r } bookE.bids
          else bookE.bids)) ∧
      (oE2.side = Side.Ask →
        bookE'.asks = (if 0 < r then insertOrderAsc oE2.price { oE2 with quantity := r } bookE.asks
          else bookE.asks)) := by
  have h : addOrder 10 oE2 bookE = some (bookE', [tE]) := by with_unfolding_all decide
  exact addOrder_conservation (by decide) (by decide) (by decide) h

def oF1 : Order := { id := "BF", price := 7, quantity := 2, side := Side.Bid, timestamp := 0 }

def bookF : OrderBook := { asks := [(9, [oW1])], bids := [(6, [oW2])] }

def bookF' : OrderBook := { asks := [(9, [oW1])], bids := [(7, [oF1]), (6, [oW2])] }

/-- Witness for C10: a bid resting at a fresh price level leaves every
pre-existing bid level untouched. -/
theorem addOrder_same_side_frame_witness :
    (oF1.side = Side.Bid →
      (bookF'.bids = bookF.bids ∨
        ∃ r, 0 < r ∧
          bookF'.bids = insertOrderDesc oF1.price { oF1 with quantity := r } bookF.bids) ∧
      ∀ e ∈ bookF.bids, queueAt e.1 bookF'.bids = some e.2 ∨
        (e.1 = oF1.price ∧ ∃ r, 0 < r ∧
          queueAt e.1 bookF'.bids = some (e.2 ++ [{ oF1 with quantity := r }]))) ∧
    (oF1.side = Side.Ask →
      (bookF'.asks = bookF.asks ∨
        ∃ r, 0 < r ∧
          bookF'.asks = insertOrderAsc oF1.price { oF1 with quantity := r } bookF.asks) ∧
      ∀ e ∈ bookF.asks, queueAt e.1 bookF'.asks = some e.2 ∨
        (e.1 = oF1.price ∧ ∃ r, 0 < r ∧
          queueAt e.1 bookF'.asks = some (e.2 ++ [{ oF1 with quantity := r }]))) := by
  have h : addOrder 10 oF1 bookF = some (bookF', []) := by with_unfolding_all decide
  exact addOrder_same_side_frame (by decide) (by decide) h

/-- C1: the claim "for every incoming order with quantity > 0 and every
book state, the matching loop of add_order terminates" fails on the
code: from the empty book, `add_order(Ask A1 @5 qty 5)` then
`add_order(Bid B1 @10 qty 5)` leave an empty level at price 5 (the
wrong-key removal `asks.remove(&bid.price)` missed it), and then
`add_order(Bid B2 @10 qty 2)` loops forever — each iteration sees the
empty level at 5, matches nothing, and again removes key 10, so no fuel
bound suffices (`matchBidGo` never returns). -/
theorem addOrder_nontermination :
    addOrder 10 oA1 emptyBook = some (book1, []) ∧
    addOrder 10 oB1 book1 = some (book2, [tradeA1B1]) ∧
    0 < oB2.quantity ∧
    ∀ fuel, addOrder fuel oB2 book2 = none := by
  refine ⟨by with_unfolding_all decide, by with_unfolding_all decide, by decide, fun fuel => ?_⟩
  have h := matchBidGo_book2_stuck fuel
  simp only [addOrder, oB2, matchBidOrder, book2]
  simp only [oB2] at h
  rw [h]

/-- C2: the claim "after every add_order call returns, neither ladder
map contains a price key whose queue is empty" fails on the code: the
call `add_order(Bid B1 @10 qty 5)` against a book whose only ask level
is (5, [A1 qty 5]) returns one trade, yet leaves the ask ladder equal
to [(5, [])] — the emptied queue at 5 stays because the source removed
key `bid.price` = 10 instead. -/
theorem addOrder_empty_level_persists :
    addOrder 10 oA1 emptyBook = some (book1, []) ∧
    addOrder 10 oB1 book1 = some (book2, [tradeA1B1]) ∧
    ∃ e ∈ book2.asks, e.2 = [] := by
  with_unfolding_all decide

def oC1 : Order := { id := "A1", price := 5, quantity := 1, side := Side.Ask, timestamp := 0 }

def oC2 : Order := { id := "A2", price := 10, quantity := 1, side := Side.Ask, timestamp := 1 }

def oC3 : Order := { id := "B1", price := 10, quantity := 1, side := Side.Bid, timestamp := 2 }

def bookC1 : OrderBook := { asks := [(5, [oC1])], bids := [] }

def bookC2 : OrderBook := { asks := [(5, [oC1]), (10, [oC2])], bids := [] }

/-- Book after `add_order(oC3)` on `bookC2`: matching emptied the queue
at price 5, and `asks.remove(&bid.price)` deleted the *whole level at
10* — silently dropping the resting order A2. -/
def bookC3 : OrderBook := { asks := [(5, [])], bids := [] }

def tradeC : Trade :=
  { maker_order_id := "A1", taker_order_id := "B1", price := 5, quantity := 1 }

/-- C3: the claim "no add_order call removes a resting order from the
book except by matching it away" fails on the code: with resting asks
A1 (1 @ 5) and A2 (1 @ 10), the call `add_order(Bid B1 @10 qty 1)`
matches A1, and the wrong-key cleanup `asks.remove(&bid.price)` deletes
the level at 10 — A2 is gone from the book afterwards, yet no returned
trade names A2 as maker. -/
theorem addOrder_drops_resting_order :
    addOrder 10 oC1 emptyBook = some (bookC1, []) ∧
    addOrder 10 oC2 bookC1 = some (bookC2, []) ∧
    (∃ e ∈ bookC2.asks, ∃ m ∈ e.2, m.id = "A2") ∧
    addOrder 10 oC3 bookC2 = some (bookC3, [tradeC]) ∧
    (∀ e ∈ bookC3.asks, ∀ m ∈ e.2, m.id ≠ "A2") ∧
    (∀ t ∈ [tradeC], t.maker_order_id ≠ "A2") := by
  with_unfolding_all decide

/-- C9: an incoming order with quantity ≤ 0 produces no trades and
leaves the book unchanged: the loop condition `quantity > 0` fails at
once and the resting insertion is guarded by the same test, so
`add_order` returns the empty trade list and the untouched book (in the
embedding it returns `some` — no panic — for any positive fuel). -/
theorem addOrder_nonpositive_qty_discard (fuel : Nat) (o : Order) (book : OrderBook)
    (hq : o.quantity ≤ 0) (hf : 0 < fuel) :
    addOrder fuel o book = some (book, []) := by
  have hq' : ¬ 0 < o.quantity := not_lt.mpr hq
  obtain ⟨n, rfl⟩ : ∃ n, fuel = n + 1 := ⟨fuel - 1, by omega⟩
  unfold addOrder
  cases hside : o.side <;>
    simp [matchBidOrder, matchAskOrder, matchBidGo, matchAskGo, hq']

/-- Witness for C9: Scenario E of the spec — a zero-quantity bid on the
empty book is discarded. -/
theorem addOrder_nonpositive_qty_discard_witness :
    addOrder 1 { id := "B2", price := 10, quantity := 0, side := Side.Bid, timestamp := 0 }
      emptyBook = some (emptyBook, []) :=
  addOrder_nonpositive_qty_discard 1 _ emptyBook (by norm_num) (by norm_num)

end CC
